import Mathlib

set_option maxRecDepth 4000

/-!
Verification development for the chat app templates repository.

The definitions below are shallow embeddings of:
* the in-memory job store (`job-store.ts`: `createJob`, `updateJobStatus`,
  `appendJobText`, `addJobPart`, `updateJobPart`, `setJobParts`, `completeJob`,
  `failJob`);
* the background generation orchestrator loop (`processChat` in the async chat
  routes) that folds provider stream events into an ordered part list and the
  job store;
* the token budgeter (`truncateToolOutput`, `countMessageTokens`,
  `truncateMessages`) and the incomplete-tool-call filter
  (`filterIncompleteToolCalls`);
* the client-side auto-retry controller (`onFinish` in `chat.tsx`).

Timestamps (`createdAt` / `updatedAt`) are elided: no verified property
mentions them.  JSON payloads are modelled as strings; the external tokenizer
(js-tiktoken) is modelled as an abstract encode/decode pair, since it is an
external dependency of the repository.
-/

namespace ChatApp

/-! ## Job store (`job-store.ts`) -/

/-- Job status values: `'pending' | 'streaming' | 'completed' | 'error'`. -/
inductive JobStatus
  | pending
  | streaming
  | completed
  | error
deriving DecidableEq, Repr

/-- A `JobMessagePart`: the TS type is `{ type: string, [key: string]: any }`.
We model the fields the orchestrator actually reads or writes; absent fields
(`undefined` in JS) are `none`. -/
structure JobPart where
  type : String
  text : Option String := none
  id : Option String := none
  toolCallId : Option String := none
  toolName : Option String := none
  args : Option String := none
  input : Option String := none
  state : Option String := none
  result : Option String := none
  output : Option String := none
  url : Option String := none
deriving DecidableEq, Repr

/-- A `ChatJob` record (timestamps elided). -/
structure ChatJob where
  id : String
  chatId : String
  status : JobStatus
  messageId : Option String
  error : Option String
  partialText : String
  parts : List JobPart
  partsReceived : Nat
  finishReason : Option String
deriving DecidableEq, Repr

/-- `createJob(jobId, chatId)`: fresh pending job inserted into the store.
We track the single job under consideration, so the store state is
`Option ChatJob` (`none` = absent/expired, matching `jobs.get` misses). -/
def createJob (jobId chatId : String) : Option ChatJob :=
  some
    { id := jobId
      chatId := chatId
      status := .pending
      messageId := none
      error := none
      partialText := ""
      parts := []
      partsReceived := 0
      finishReason := none }

/-- Replace the first element satisfying `pred` (JS `Array.prototype.find`
followed by in-place mutation). -/
def updateFirst (pred : JobPart → Bool) (f : JobPart → JobPart) :
    List JobPart → List JobPart
  | [] => []
  | p :: ps => if pred p then f p :: ps else p :: updateFirst pred f ps

/-- `updateJobStatus(jobId, status)`: sets the status unconditionally (the
store performs no monotonicity guard).  The optional `updates` partial is not
used with extra fields by the orchestrator, so it is not modelled. -/
def updateJobStatus (st : JobStatus) : Option ChatJob → Option ChatJob :=
  Option.map fun job => { job with status := st }

/-- Core of `appendJobText(jobId, text)`. -/
def appendJobTextCore (text : String) (job : ChatJob) : ChatJob :=
  let pt := job.partialText ++ text
  let parts :=
    if job.parts.any (fun p => p.type == "text") then
      updateFirst (fun p => p.type == "text") (fun p => { p with text := some pt }) job.parts
    else
      job.parts ++ [{ type := "text", text := some pt }]
  { job with partialText := pt, partsReceived := job.partsReceived + 1, parts := parts }

/-- `appendJobText(jobId, text)`: appends to `partialText`, bumps the
progress counter, and keeps the single `text` part in `parts` in sync. -/
def appendJobText (text : String) : Option ChatJob → Option ChatJob :=
  Option.map (appendJobTextCore text)

/-- `addJobPart(jobId, part)`: pushes a part and bumps the counter. -/
def addJobPart (part : JobPart) : Option ChatJob → Option ChatJob :=
  Option.map fun job =>
    { job with parts := job.parts ++ [part], partsReceived := job.partsReceived + 1 }

/-- Core of `updateJobPart(jobId, matcher, updates)`: if some part matches,
the first match is updated and the counter bumped; otherwise a no-op. -/
def updateJobPartCore (matcher : JobPart → Bool) (f : JobPart → JobPart)
    (job : ChatJob) : ChatJob :=
  if job.parts.any matcher then
    { job with parts := updateFirst matcher f job.parts,
               partsReceived := job.partsReceived + 1 }
  else job

/-- `updateJobPart(jobId, matcher, updates)`. -/
def updateJobPart (matcher : JobPart → Bool) (f : JobPart → JobPart) :
    Option ChatJob → Option ChatJob :=
  Option.map (updateJobPartCore matcher f)

/-- `setJobParts(jobId, parts)`: replaces the parts array wholesale. -/
def setJobParts (parts : List JobPart) : Option ChatJob → Option ChatJob :=
  Option.map fun job =>
    { job with parts := parts, partsReceived := job.partsReceived + 1 }

/-- `completeJob(jobId, messageId, finishReason)`: unconditionally sets the
terminal `completed` status (no check of the current status). -/
def completeJob (messageId : String) (finishReason : Option String) :
    Option ChatJob → Option ChatJob :=
  Option.map fun job =>
    { job with status := .completed, messageId := some messageId,
               finishReason := finishReason }

/-- `failJob(jobId, error)`: unconditionally sets the terminal `error`
status and the error text; every other field is left untouched. -/
def failJob (error : String) : Option ChatJob → Option ChatJob :=
  Option.map fun job => { job with status := .error, error := some error }

/-! ## Generation orchestrator (`processChat`, async chat routes)

The stream loop keeps an ordered local part list (`orderedParts`), mutated
through object references held by `currentTextPart`, `reasoningPart` and the
`toolCalls` map.  We model object identity with numeric part ids allocated
from a counter: `order` is the ordered list of `(id, part)` entries, and the
reference cells hold ids. -/

/-- One event of `result.fullStream`, as branched on by `processChat`.
`textDelta`/`reasoningDelta` carry the two possible field aliases
(`textDelta ?? text`); absent fields are `none`. -/
inductive StreamEvent
  | textDelta (textDeltaField textField : Option String)
  | reasoningDelta (textDeltaField textField : Option String)
  | toolCall (toolCallId toolName : String) (args input : Option String)
  | toolResult (toolCallId : String) (result output : Option String)
  | sourceEvt (url : String)
  | finishEvt (finishReason : String)
  | stepStart
  | stepFinish
  | textStart
  | textEnd
  | errorEvt (message : Option String)
  | unknown (tag : String)
deriving DecidableEq, Repr

/-- Look up a part by id (first entry with that id). -/
def lookupId : List (Nat × JobPart) → Nat → Option JobPart
  | [], _ => none
  | e :: l, n => if e.1 = n then some e.2 else lookupId l n

/-- Mutate the part object with the given id (first entry with that id). -/
def updateById (n : Nat) (f : JobPart → JobPart) :
    List (Nat × JobPart) → List (Nat × JobPart)
  | [] => []
  | e :: l => if e.1 = n then (e.1, f e.2) :: l else e :: updateById n f l

/-- `Map.get` on the `toolCalls` map. -/
def assocGet (l : List (String × Nat)) (k : String) : Option Nat :=
  match l with
  | [] => none
  | e :: l => if e.1 = k then some e.2 else assocGet l k

/-- `Map.set` on the `toolCalls` map (overwrites an existing key). -/
def assocSet (k : String) (v : Nat) : List (String × Nat) → List (String × Nat)
  | [] => [(k, v)]
  | e :: l => if e.1 = k then (k, v) :: l else e :: assocSet k v l

/-- Local state of the `processChat` stream loop plus the job-store entry it
writes through. -/
structure OrchState where
  job : Option ChatJob
  order : List (Nat × JobPart)
  nextId : Nat
  currentText : Option Nat
  reasoningId : Option Nat
  toolCalls : List (String × Nat)
  finishReason : Option String
deriving DecidableEq, Repr

/-- The part pushed by the `tool-call` case: `dynamic-tool`, with the alias
fields (`args := args ?? input`) and `input-available` state. -/
def newToolPart (tcid name : String) (args input : Option String) : JobPart :=
  { type := "dynamic-tool"
    id := some tcid
    toolCallId := some tcid
    toolName := some name
    args := args.orElse fun _ => input
    input := input
    state := some "input-available" }

/-- The field updates applied when a `tool-result` for `tcid` resolves the
open call: `state := 'output-available'`, `result := output := result ?? output`. -/
def resolveToolFields (ro : Option String) (p : JobPart) : JobPart :=
  { p with state := some "output-available", result := ro, output := ro }

/-- One iteration of the `for await (const part of result.fullStream)` switch. -/
def stepEvent (e : StreamEvent) (s : OrchState) : OrchState :=
  match e with
  | .textDelta td tf =>
    match td.orElse fun _ => tf with
    | none => s
    | some content =>
      match s.currentText with
      | some cid =>
        { s with
          order := updateById cid
            (fun p => { p with text := some ((p.text.getD "") ++ content) }) s.order
          job := appendJobText content s.job }
      | none =>
        -- a fresh `{ type: 'text', text: '' }` is pushed, then appended into
        { s with
          order := s.order ++ [(s.nextId, { type := "text", text := some content })]
          nextId := s.nextId + 1
          currentText := some s.nextId
          job := appendJobText content s.job }
  | .reasoningDelta td tf =>
    match td.orElse fun _ => tf with
    | none => s
    | some content =>
      match s.reasoningId with
      | some rid =>
        let newText := ((lookupId s.order rid).bind JobPart.text).getD "" ++ content
        { s with
          order := updateById rid (fun p => { p with text := some newText }) s.order
          job := updateJobPart (fun p => p.type == "reasoning")
            (fun p => { p with text := some newText }) s.job }
      | none =>
        -- created with text '', unshifted, added to the job, then appended into;
        -- the job-store copy is synced by the `updateJobPart` call
        { s with
          order := (s.nextId, { type := "reasoning", text := some content }) :: s.order
          nextId := s.nextId + 1
          reasoningId := some s.nextId
          job := updateJobPart (fun p => p.type == "reasoning")
            (fun p => { p with text := some content })
            (addJobPart { type := "reasoning", text := some "" } s.job) }
  | .toolCall tcid name args input =>
    let p := newToolPart tcid name args input
    { s with
      currentText := none
      order := s.order ++ [(s.nextId, p)]
      nextId := s.nextId + 1
      toolCalls := assocSet tcid s.nextId s.toolCalls
      job := addJobPart p s.job }
  | .toolResult tcid result output =>
    match assocGet s.toolCalls tcid with
    | none => s  -- no matching open call: dropped
    | some tid =>
      let ro := result.orElse fun _ => output
      { s with
        order := updateById tid (resolveToolFields ro) s.order
        job := updateJobPart
          (fun p => p.type == "dynamic-tool" && p.toolCallId == some tcid)
          (resolveToolFields ro) s.job }
  | .sourceEvt url =>
    let p : JobPart := { type := "source-url", url := some url }
    { s with
      order := s.order ++ [(s.nextId, p)]
      nextId := s.nextId + 1
      job := addJobPart p s.job }
  | .finishEvt r => { s with finishReason := some r }
  | .stepStart =>
    let p : JobPart := { type := "step-start" }
    { s with
      order := s.order ++ [(s.nextId, p)]
      nextId := s.nextId + 1
      job := addJobPart p s.job }
  | .stepFinish => s
  | .textStart => s
  | .textEnd => s
  | .errorEvt _ => s  -- logged only; the catch block handles thrown errors
  | .unknown _ => s   -- unhandled part types are logged, never raised

/-- State at the top of the loop: the route has called `createJob` and
`processChat` has set the status to `streaming`. -/
def initOrch (jobId chatId : String) : OrchState :=
  { job := updateJobStatus .streaming (createJob jobId chatId)
    order := []
    nextId := 0
    currentText := none
    reasoningId := none
    toolCalls := []
    finishReason := none }

/-- Run the stream loop over a list of events. -/
def runEvents (jobId chatId : String) (events : List StreamEvent) : OrchState :=
  events.foldl (fun s e => stepEvent e s) (initOrch jobId chatId)

/-- The parts, in order, ignoring ids. -/
def partsOf (s : OrchState) : List JobPart :=
  s.order.map Prod.snd

/-- The final part list: `orderedParts`, plus the `result.text` fallback text
part pushed when streaming accumulated no text (`if (resultText && !fullText)`,
where `fullText` is `currentTextPart?.text || ''`). -/
def finalParts (s : OrchState) (resultText : Option String) : List JobPart :=
  match resultText with
  | some rt =>
    if rt ≠ "" ∧ ((s.currentText.bind (lookupId s.order)).bind JobPart.text).getD "" = ""
    then partsOf s ++ [{ type := "text", text := some rt }]
    else partsOf s
  | none => partsOf s

/-- The `finishReason || 'stop'` default applied at completion. -/
def finishReasonOrStop (fr : Option String) : String :=
  match fr with
  | some r => if r = "" then "stop" else r
  | none => "stop"

/-- Finalization after the stream ends naturally: `setJobParts`, the
best-effort `saveMessages` call (its failure is caught and only logged, the
job store is untouched either way), then `completeJob`. -/
def finalizeRun (jobId chatId : String) (events : List StreamEvent)
    (resultText : Option String) (messageId : String) (dbAvailable : Bool)
    (saveResult : Except String Unit) : OrchState :=
  let s := runEvents jobId chatId events
  let parts := finalParts s resultText
  let job₁ := setJobParts parts s.job
  let job₂ :=
    if dbAvailable && parts.length > 0 then
      match saveResult with
      | .ok _ => job₁
      | .error _ => job₁  -- `catch (dbError) { console.error(...) }`: log only
    else job₁
  { s with job := completeJob messageId (some (finishReasonOrStop s.finishReason)) job₂ }

/-- A thrown JS value: either an `Error` with a message, or something else. -/
inductive JsException
  | jsError (message : String)
  | nonError
deriving DecidableEq, Repr

/-- `error instanceof Error ? error.message : 'Chat processing failed'`. -/
def caughtMessage : JsException → String
  | .jsError m => m
  | .nonError => "Chat processing failed"

/-- The catch block of `processChat`: an exception raised before or during
streaming reaches `failJob(jobId, ...)` directly. -/
def failedRun (jobId chatId : String) (events : List StreamEvent)
    (exc : JsException) : Option ChatJob :=
  failJob (caughtMessage exc) (runEvents jobId chatId events).job

/-! ## Token budgeter (`truncate-messages.ts`) and tool-call filter

The tokenizer (js-tiktoken, `cl100k_base`) is an external dependency; it is
modelled abstractly as an encode/decode pair.  A JSON value is either a
string or a non-string value carried by its `JSON.stringify` form (a
non-string object is always truthy). -/

/-- Abstract tokenizer: `encode : string → token list`, `decode`. -/
structure Tok where
  encode : String → List Nat
  decode : List Nat → String

/-- A JSON value as the budgeter sees it: `str s` is a JS string, `obj s` is
any non-string value whose `JSON.stringify` is `s`. -/
inductive JsonVal
  | str (s : String)
  | obj (s : String)
deriving DecidableEq, Repr

/-- `typeof v === 'string' ? v : JSON.stringify(v)`. -/
def JsonVal.toStr : JsonVal → String
  | .str s => s
  | .obj s => s

/-- JS truthiness: an empty string is falsy, a non-string object is truthy. -/
def JsonVal.truthy : JsonVal → Bool
  | .str s => s ≠ ""
  | .obj _ => true

/-- A `UIMessagePart` as read by the budgeter and the tool-call filter.
Absent (`undefined`) fields are `none`. -/
structure UIPart where
  type : String
  text : Option String := none
  toolName : Option String := none
  toolCallId : Option String := none
  state : Option String := none
  input : Option JsonVal := none
  output : Option JsonVal := none
  result : Option JsonVal := none
deriving DecidableEq, Repr

/-- A `ChatMessage` (conversation history entry). -/
structure UIMessage where
  id : String
  role : String
  parts : List UIPart
deriving DecidableEq, Repr

/-- The truncation marker appended by `truncateToolOutput`:
`\n\n[Output truncated: N tokens → M tokens]`. -/
def truncIndicator (total maxTokens : Nat) : String :=
  "\n\n[Output truncated: " ++ toString total ++ " tokens → " ++
    toString maxTokens ++ " tokens]"

/-- `truncateToolOutput(output, maxTokens)`: returns the value unchanged when
it fits, otherwise the decoded first `maxTokens` tokens plus the marker. -/
def truncateToolOutput (tk : Tok) (output : JsonVal) (maxTokens : Nat) :
    JsonVal × Bool :=
  if (tk.encode output.toStr).length ≤ maxTokens then (output, false)
  else
    (.str (tk.decode ((tk.encode output.toStr).take maxTokens) ++
        truncIndicator (tk.encode output.toStr).length maxTokens),
      true)

/-- The token count contributed by one part (`countMessageTokens` loop body):
non-empty text is encoded; `dynamic-tool` parts contribute their (truthy)
input and output strings; other part types contribute nothing.  The count
always reflects the original (untruncated) output. -/
def countPartTokens (tk : Tok) (p : UIPart) : Nat :=
  if p.type = "text" then
    match p.text with
    | some t => if t ≠ "" then (tk.encode t).length else 0
    | none => 0
  else if p.type = "dynamic-tool" then
    (match p.input with
      | some v => if v.truthy then (tk.encode v.toStr).length else 0
      | none => 0) +
    (match p.output with
      | some v => if v.truthy then (tk.encode v.toStr).length else 0
      | none => 0)
  else 0

/-- The in-place substitution performed by the `countMessageTokens` loop
body: when truncation is requested and the (truthy) output of a
`dynamic-tool` part was truncated, `newParts[i]` receives the truncated
output; otherwise the part is untouched. -/
def replacePartOutput (tk : Tok) (truncateToolOutputs : Bool) (p : UIPart) : UIPart :=
  if p.type = "dynamic-tool" then
    match p.output with
    | some v =>
      if v.truthy then
        if truncateToolOutputs then
          if (truncateToolOutput tk v 5000).2 then
            { p with output := some (truncateToolOutput tk v 5000).1 }
          else p
        else p
      else p
    | none => p
  else p

/-- Per-part token count and (optional) tool-output truncation, one iteration
of the loop in `countMessageTokens`. -/
def countPart (tk : Tok) (truncateToolOutputs : Bool) (p : UIPart) : Nat × UIPart :=
  (countPartTokens tk p, replacePartOutput tk truncateToolOutputs p)

/-- `countMessageTokens(message, truncateToolOutputs)`: sums the per-part
counts plus the fixed 4-token per-message overhead, and returns the message
with any truncated tool outputs substituted. -/
def countMessageTokens (tk : Tok) (truncateToolOutputs : Bool) (m : UIMessage) :
    Nat × UIMessage :=
  let rs := m.parts.map (countPart tk truncateToolOutputs)
  (rs.foldl (fun a r => a + r.1) 0 + 4, { m with parts := rs.map Prod.snd })

/-- The processed form of a kept message (tool outputs truncated). -/
def procMsg (tk : Tok) (m : UIMessage) : UIMessage :=
  (countMessageTokens tk true m).2

/-- The newest-to-oldest accumulation loop of `truncateMessages`.  `rev` is
the remaining history, newest first; `kept` is the (oldest-first) list built
by `unshift`; `total` the running token count.  The loop `break`s once the
ceiling would be exceeded and at least 2 messages are kept. -/
def truncateLoop (tk : Tok) (maxTokens : Nat) :
    List UIMessage → List UIMessage → Nat → List UIMessage × Nat
  | [], kept, total => (kept, total)
  | raw :: older, kept, total =>
    let r := countMessageTokens tk true raw
    if total + r.1 ≤ maxTokens then
      truncateLoop tk maxTokens older (r.2 :: kept) (total + r.1)
    else if kept.length < 2 then
      -- forced inclusion to maintain the minimum context floor
      truncateLoop tk maxTokens older (r.2 :: kept) (total + r.1)
    else
      (kept, total)

/-- `truncateMessages(messages, maxTokens = 100000)`: keeps the most recent
messages whose (tool-output-truncated) token counts fit the ceiling, with a
floor of 2 kept messages; when every message is kept, the original input
array is returned unchanged. -/
def truncateMessages (tk : Tok) (messages : List UIMessage)
    (maxTokens : Nat := 100000) : List UIMessage :=
  if messages.isEmpty then messages
  else if (truncateLoop tk maxTokens messages.reverse [] 0).1.length = messages.length then
    messages
  else (truncateLoop tk maxTokens messages.reverse [] 0).1

/-- The keep-predicate of `filterIncompleteToolCalls` (async chat routes):
a `dynamic-tool` part is kept only in `output-available` state with an
`output` or `result` present; every other part type is kept. -/
def keepPart (p : UIPart) : Bool :=
  if p.type = "dynamic-tool" then
    p.state == some "output-available" && (p.output.isSome || p.result.isSome)
  else true

/-- The placeholder substituted when filtering empties a non-empty turn. -/
def interruptionPlaceholder : UIPart :=
  { type := "text", text := some "[Previous response was interrupted]" }

/-- Per-message body of `filterIncompleteToolCalls`. -/
def filterMsg (m : UIMessage) : UIMessage :=
  if m.role ≠ "assistant" then m
  else if (m.parts.filter keepPart).isEmpty && !m.parts.isEmpty then
    { m with parts := [interruptionPlaceholder] }
  else { m with parts := m.parts.filter keepPart }

/-- `filterIncompleteToolCalls(messages)`. -/
def filterIncompleteToolCalls (messages : List UIMessage) : List UIMessage :=
  messages.map filterMsg

/-- The outbound-history preparation in `processChat`: incomplete tool calls
are filtered out first, then the result is token-budgeted
(`truncateMessages(filterIncompleteToolCalls(uiMessages))`). -/
def prepareOutbound (tk : Tok) (maxTokens : Nat) (messages : List UIMessage) :
    List UIMessage :=
  truncateMessages tk (filterIncompleteToolCalls messages) maxTokens

/-- A concrete instance of the abstract tokenizer for witnesses and
counterexamples: one token per character. -/
def charTok : Tok :=
  { encode := fun s => s.data.map Char.toNat
    decode := fun l => String.mk (l.map Char.ofNat) }

/-! ## Client resume/retry controller (`chat.tsx`)

The `onFinish` callback of `useChat`, as a pure transition on the refs it
reads and writes (`streamCursorRef`, `lastPartRef`, `retryCountRef`,
`lastMessageIdRef`), emitting the side effects as actions. -/

/-- The mutable client refs. -/
structure ClientState where
  streamCursor : Nat
  lastPart : Option String
  retryCount : Nat
  lastMessageId : Option String
deriving DecidableEq, Repr

/-- Observable side effects of `onFinish`. -/
inductive ClientAction
  | fetchHistory
  | clearErrorCall
  | infoRetryToast (attempt total : Nat)
  | scheduleRetry (delayMs : Nat)
  | warnPartialToast
deriving DecidableEq, Repr

/-- The classified way a stream attempt ended, as passed to `onFinish`. -/
structure FinishEvent where
  isAbort : Bool
  isDisconnect : Bool
  isError : Bool
  finishedMessageId : Option String
  hasOAuthError : Bool
deriving DecidableEq, Repr

/-- `const maxRetries = 2`. -/
def maxRetries : Nat := 2

/-- `const SUBSTANTIAL_CONTENT_THRESHOLD = 50`. -/
def substantialContentThreshold : Nat := 50

/-- `onStreamPart`: bump the cursor, remember the last part type. -/
def onStreamPart (partType : String) (s : ClientState) : ClientState :=
  { s with streamCursor := s.streamCursor + 1, lastPart := some partType }

/-- `onFinish` transition.  The fall-through branch resets `retryCountRef`
to 0 (chat.tsx line 271) BEFORE the exhausted-retries check (line 279),
which therefore never fires. -/
def onFinish (f : FinishEvent) (s : ClientState) : ClientState × List ClientAction :=
  if f.isAbort then
    ({ s with streamCursor := 0 }, [.fetchHistory])
  else if f.hasOAuthError then
    ({ s with streamCursor := 0 }, [.fetchHistory, .clearErrorCall])
  else
    let streamIncomplete := s.lastPart != some "finish"
    let hasSubstantialContent := substantialContentThreshold < s.streamCursor
    let wasInterrupted :=
      (f.isDisconnect || f.isError) && streamIncomplete && !hasSubstantialContent
    if wasInterrupted && s.retryCount < maxRetries &&
        (f.finishedMessageId == s.lastMessageId || s.lastMessageId == none) then
      let rc := s.retryCount + 1
      ({ s with retryCount := rc, lastMessageId := f.finishedMessageId },
        [.infoRetryToast (rc + 1) (maxRetries + 1),
          .scheduleRetry (min (1000 * 2 ^ (rc - 1)) 5000)])
    else
      let rcAfterReset := 0
      ({ s with retryCount := rcAfterReset, lastMessageId := none, streamCursor := 0 },
        [.fetchHistory] ++
          (if wasInterrupted && decide (maxRetries ≤ rcAfterReset) then
            [.warnPartialToast]
          else []))

/-- One stream attempt: a list of received part types, then the finish event. -/
structure Attempt where
  parts : List String
  finish : FinishEvent
deriving DecidableEq, Repr

/-- Fold one attempt through the client controller. -/
def runAttempt (s : ClientState) (a : Attempt) : ClientState × List ClientAction :=
  onFinish a.finish (a.parts.foldl (fun st t => onStreamPart t st) s)

/-- Fold a sequence of attempts, collecting all emitted actions. -/
def runAttempts (s : ClientState) : List Attempt → ClientState × List ClientAction
  | [] => (s, [])
  | a :: rest =>
    let r := runAttempt s a
    let r' := runAttempts r.1 rest
    (r'.1, r.2 ++ r'.2)

/-- Initial client state. -/
def initClient : ClientState :=
  { streamCursor := 0, lastPart := none, retryCount := 0, lastMessageId := none }

/-- An ambiguous interruption: a few parts arrive, then the connection drops
with no `finish` event, on message `msg-1`. -/
def ambiguousInterruption : Attempt :=
  { parts := ["text-delta", "text-delta", "text-delta"]
    finish :=
      { isAbort := false
        isDisconnect := true
        isError := false
        finishedMessageId := some "msg-1"
        hasOAuthError := false } }

/-- Is an action a scheduled automatic retry? -/
def isRetryAction : ClientAction → Bool
  | .scheduleRetry _ => true
  | _ => false

/-- Is an action the partial-result warning toast? -/
def isWarnAction : ClientAction → Bool
  | .warnPartialToast => true
  | _ => false

/-! ## Job store operation sequences (for the status-monotonicity claim) -/

/-- A job store operation on a single job, as performed by the route handlers
and the orchestrator (`resolveTool` is `updateJobPart` with the tool-result
matcher). -/
inductive JobOp
  | updateStatus (st : JobStatus)
  | appendText (t : String)
  | addPart (p : JobPart)
  | setParts (ps : List JobPart)
  | resolveTool (toolCallId : String) (result : String)
  | complete (messageId : String) (finishReason : Option String)
  | fail (error : String)
deriving DecidableEq, Repr

/-- Apply one operation to the store. -/
def applyJobOp : JobOp → Option ChatJob → Option ChatJob
  | .updateStatus st, s => updateJobStatus st s
  | .appendText t, s => appendJobText t s
  | .addPart p, s => addJobPart p s
  | .setParts ps, s => setJobParts ps s
  | .resolveTool tcid r, s =>
    updateJobPart (fun p => p.type == "dynamic-tool" && p.toolCallId == some tcid)
      (resolveToolFields (some r)) s
  | .complete mid fr, s => completeJob mid fr s
  | .fail e, s => failJob e s

/-- The status an operation writes, if any. -/
def statusSetBy : JobOp → Option JobStatus
  | .updateStatus st => some st
  | .complete _ _ => some .completed
  | .fail _ => some .error
  | _ => none

/-- Rank along the lifecycle order: pending → streaming → terminal. -/
def statusRank : JobStatus → Nat
  | .pending => 0
  | .streaming => 1
  | .completed => 2
  | .error => 2

/-- One admissible transition: the rank never decreases, and a terminal
status never changes at all. -/
abbrev monotoneStep (a b : JobStatus) : Prop :=
  statusRank a ≤ statusRank b ∧ (statusRank a = 2 → b = a)

/-- The job statuses observed after job creation and after each operation. -/
def statusTrace (ops : List JobOp) : List JobStatus :=
  (ops.scanl (fun s op => applyJobOp op s) (createJob "job-1" "chat-1")).filterMap
    (fun s => s.map ChatJob.status)

/-- `okOps s ops`: every status-writing operation in `ops` is itself an
admissible transition from the status current when it runs. -/
def okOps : Option ChatJob → List JobOp → Bool
  | _, [] => true
  | s, op :: rest =>
    (match statusSetBy op, s with
      | some st, some j => decide (monotoneStep j.status st)
      | _, _ => true) &&
      okOps (applyJobOp op s) rest

/-! ## Basic lemmas about the job store operations -/

theorem updateJobPartCore_error (matcher : JobPart → Bool) (f : JobPart → JobPart)
    (j : ChatJob) : (updateJobPartCore matcher f j).error = j.error := by
  unfold updateJobPartCore
  split <;> rfl

theorem updateJobPartCore_status (matcher : JobPart → Bool) (f : JobPart → JobPart)
    (j : ChatJob) : (updateJobPartCore matcher f j).status = j.status := by
  unfold updateJobPartCore
  split <;> rfl

theorem appendJobTextCore_error (t : String) (j : ChatJob) :
    (appendJobTextCore t j).error = j.error := rfl

/-- Every stream-loop step leaves the presence of the job untouched. -/
theorem stepEvent_job_isSome (e : StreamEvent) (s : OrchState) :
    ((stepEvent e s).job).isSome = s.job.isSome := by
  cases e <;>
    simp only [stepEvent] <;>
    (repeat' split) <;>
    simp [appendJobText, addJobPart, updateJobPart, Option.isSome_map]

/-- Every stream-loop step leaves the job's `error` field untouched. -/
theorem stepEvent_job_error (e : StreamEvent) (s : OrchState) :
    ((stepEvent e s).job).map ChatJob.error = s.job.map ChatJob.error := by
  cases e <;>
    simp only [stepEvent] <;>
    (repeat' split) <;>
    (first
      | rfl
      | (cases s.job <;>
          simp [appendJobText, appendJobTextCore_error, addJobPart, updateJobPart,
            updateJobPartCore_error]))

theorem foldl_stepEvent_job_isSome (l : List StreamEvent) :
    ∀ s : OrchState, ((l.foldl (fun s e => stepEvent e s) s).job).isSome = s.job.isSome := by
  induction l with
  | nil => intro s; rfl
  | cons e l ih => intro s; rw [List.foldl_cons, ih, stepEvent_job_isSome]

theorem foldl_stepEvent_job_error (l : List StreamEvent) :
    ∀ s : OrchState,
      ((l.foldl (fun s e => stepEvent e s) s).job).map ChatJob.error =
        s.job.map ChatJob.error := by
  induction l with
  | nil => intro s; rfl
  | cons e l ih => intro s; rw [List.foldl_cons, ih, stepEvent_job_error]

theorem runEvents_job_isSome (jobId chatId : String) (events : List StreamEvent) :
    ((runEvents jobId chatId events).job).isSome = true := by
  rw [runEvents, foldl_stepEvent_job_isSome]
  rfl

theorem runEvents_job_error (jobId chatId : String) (events : List StreamEvent) :
    ((runEvents jobId chatId events).job).map ChatJob.error = some none := by
  rw [runEvents, foldl_stepEvent_job_error]
  rfl

/-! ## C7: failures keep accumulated progress -/

/-- Claim C7: if an exception is raised before or during streaming, the job
transitions directly to the `error` terminal status with the exception's
message captured verbatim in the job's error field, and the failure changes
nothing else: the `partialText` and `parts` accumulated in the job store
before the failure are retained unchanged. -/
theorem claim_C7 (jobId chatId : String) (events : List StreamEvent) (m : String) :
    (failedRun jobId chatId events (.jsError m)).map ChatJob.status = some .error ∧
    (failedRun jobId chatId events (.jsError m)).map ChatJob.error = some (some m) ∧
    (failedRun jobId chatId events (.jsError m)).map ChatJob.partialText =
      (runEvents jobId chatId events).job.map ChatJob.partialText ∧
    (failedRun jobId chatId events (.jsError m)).map ChatJob.parts =
      (runEvents jobId chatId events).job.map ChatJob.parts := by
  obtain ⟨j, hj⟩ := Option.isSome_iff_exists.mp (runEvents_job_isSome jobId chatId events)
  simp [failedRun, failJob, caughtMessage, hj]

/-! ## C8: persistence failure never flips a completed job -/

/-- Claim C8: if the stream ends naturally and the persistence call
(`saveMessages`) then fails, the job is still marked completed with its
message id and finish reason; the persistence outcome is only logged, never
written into the job's `error` field, and never flips the status to `error`
— the final state does not depend on the persistence outcome at all. -/
theorem claim_C8 (jobId chatId : String) (events : List StreamEvent)
    (rt : Option String) (mid : String) (db : Bool) (r₁ r₂ : Except String Unit) :
    finalizeRun jobId chatId events rt mid db r₁ =
      finalizeRun jobId chatId events rt mid db r₂ ∧
    (finalizeRun jobId chatId events rt mid db r₁).job.map ChatJob.status =
      some .completed ∧
    (finalizeRun jobId chatId events rt mid db r₁).job.map ChatJob.messageId =
      some (some mid) ∧
    (finalizeRun jobId chatId events rt mid db r₁).job.map ChatJob.finishReason =
      some (some (finishReasonOrStop (runEvents jobId chatId events).finishReason)) ∧
    (finalizeRun jobId chatId events rt mid db r₁).job.map ChatJob.error = some none := by
  obtain ⟨j, hj⟩ := Option.isSome_iff_exists.mp (runEvents_job_isSome jobId chatId events)
  have herr : ((runEvents jobId chatId events).job).map ChatJob.error = some none :=
    runEvents_job_error jobId chatId events
  rw [hj] at herr
  refine ⟨by cases r₁ <;> cases r₂ <;> rfl, ?_⟩
  cases r₁ <;>
    simp_all [finalizeRun, setJobParts, completeJob, hj]

/-! ## C10: `appendJobText` accumulates into one text part -/

theorem appendFold_shape (jobId chatId : String) :
    ∀ (chunks : List String) (pt : String) (n : Nat),
      chunks.foldl (fun s t => appendJobText t s)
        (some
          { id := jobId, chatId := chatId, status := .pending, messageId := none,
            error := none, partialText := pt,
            parts := [{ type := "text", text := some pt }],
            partsReceived := n, finishReason := none }) =
      some
        { id := jobId, chatId := chatId, status := .pending, messageId := none,
          error := none, partialText := chunks.foldl (fun a t => a ++ t) pt,
          parts := [{ type := "text",
                      text := some (chunks.foldl (fun a t => a ++ t) pt) }],
          partsReceived := n + chunks.length, finishReason := none } := by
  intro chunks
  induction chunks with
  | nil => intro pt n; simp
  | cons c rest ih =>
    intro pt n
    rw [List.foldl_cons]
    have hstep :
        appendJobText c
          (some
            { id := jobId, chatId := chatId, status := .pending, messageId := none,
              error := none, partialText := pt,
              parts := [{ type := "text", text := some pt }],
              partsReceived := n, finishReason := none }) =
        some
          { id := jobId, chatId := chatId, status := .pending, messageId := none,
            error := none, partialText := pt ++ c,
            parts := [{ type := "text", text := some (pt ++ c) }],
            partsReceived := n + 1, finishReason := none } := by
      simp [appendJobText, appendJobTextCore, updateFirst]
    rw [hstep, List.foldl_cons, ih (pt ++ c) (n + 1)]
    simp only [List.foldl_cons, List.length_cons]
    have harith : n + 1 + rest.length = n + (rest.length + 1) := by omega
    rw [harith]

/-- Claim C10: starting from a freshly created job, after any sequence of
`appendJobText` calls the job's `partialText` equals the concatenation of the
appended chunks in call order; `parts` contains at most one part of type
`text`, whose `text` (when it exists) equals `partialText`; and the progress
counter equals the number of calls.  Moreover each `appendJobText` call on
any existing job bumps `partsReceived` by exactly one. -/
theorem claim_C10 (jobId chatId : String) (chunks : List String) :
    (∃ j, chunks.foldl (fun s t => appendJobText t s) (createJob jobId chatId) = some j ∧
      j.partialText = chunks.foldl (fun a t => a ++ t) "" ∧
      (j.parts.filter fun p => p.type == "text").length ≤ 1 ∧
      (∀ p ∈ j.parts, p.type = "text" → p.text = some j.partialText) ∧
      j.partsReceived = chunks.length) ∧
    ∀ (job : ChatJob) (t : String),
      (appendJobText t (some job)).map ChatJob.partsReceived =
        some (job.partsReceived + 1) := by
  constructor
  · cases chunks with
    | nil =>
      exact ⟨_, rfl, rfl, by simp, by simp [createJob], rfl⟩
    | cons c rest =>
      rw [List.foldl_cons]
      have hstep :
          appendJobText c (createJob jobId chatId) =
          some
            { id := jobId, chatId := chatId, status := .pending, messageId := none,
              error := none, partialText := "" ++ c,
              parts := [{ type := "text", text := some ("" ++ c) }],
              partsReceived := 0 + 1, finishReason := none } := by
        simp [appendJobText, createJob, appendJobTextCore]
      rw [hstep, appendFold_shape jobId chatId rest ("" ++ c) (0 + 1)]
      refine ⟨_, rfl, rfl, by simp, ?_, ?_⟩
      · intro p hp _
        rw [List.mem_singleton] at hp
        rw [hp]
      · show 0 + 1 + rest.length = rest.length + 1
        omega
  · intro job t
    simp [appendJobText, appendJobTextCore]

/-! ## C1: status monotonicity is not enforced by the store -/

/-- Claim C1, counterexample: a cancel (`failJob('Cancelled by user')`)
followed by the background orchestrator's `completeJob` moves the job from
the terminal `error` status to `completed`: the observed status trace
`pending, error, completed` violates monotonicity. -/
theorem claim_C1_counterexample :
    ¬ List.Chain' monotoneStep
      (statusTrace [.fail "Cancelled by user", .complete "msg-1" (some "stop")]) := by
  intro h
  have htrace :
      statusTrace [.fail "Cancelled by user", .complete "msg-1" (some "stop")] =
        [.pending, .error, .completed] := by decide
  rw [htrace] at h
  have h3 := (List.chain'_cons.mp (List.chain'_cons.mp h).2).1
  exact JobStatus.noConfusion (h3.2 rfl)

theorem applyJobOp_some (op : JobOp) (j : ChatJob) :
    ∃ j', applyJobOp op (some j) = some j' ∧
      j'.status = (statusSetBy op).getD j.status := by
  cases op with
  | updateStatus st => exact ⟨_, rfl, rfl⟩
  | appendText t => exact ⟨_, rfl, rfl⟩
  | addPart p => exact ⟨_, rfl, rfl⟩
  | setParts ps => exact ⟨_, rfl, rfl⟩
  | resolveTool tcid r =>
    exact ⟨_, rfl, updateJobPartCore_status _ _ j⟩
  | complete mid fr => exact ⟨_, rfl, rfl⟩
  | fail e => exact ⟨_, rfl, rfl⟩

theorem chain_statusTrace_aux :
    ∀ (ops : List JobOp) (j : ChatJob), okOps (some j) ops = true →
      List.Chain' monotoneStep
        ((ops.scanl (fun s op => applyJobOp op s) (some j)).filterMap
          (fun s => s.map ChatJob.status))
  | [], j, _ => by simp
  | op :: rest, j, h => by
    obtain ⟨j', hj', hst⟩ := applyJobOp_some op j
    unfold okOps at h
    rw [Bool.and_eq_true] at h
    have hok2 : okOps (applyJobOp op (some j)) rest = true := h.2
    rw [hj'] at hok2
    have ih := chain_statusTrace_aux rest j' hok2
    rw [List.scanl_cons, hj']
    have hshape : ∃ t, ((rest.scanl (fun s op => applyJobOp op s) (some j')).filterMap
        (fun s => s.map ChatJob.status)) = j'.status :: t := by
      cases rest with
      | nil => exact ⟨[], by simp⟩
      | cons op2 r2 =>
        rw [List.scanl_cons, List.singleton_append]
        exact ⟨((r2.scanl (fun s op => applyJobOp op s)
          (applyJobOp op2 (some j'))).filterMap (fun s => s.map ChatJob.status)), by simp⟩
    obtain ⟨t, ht⟩ := hshape
    rw [List.singleton_append]
    show List.Chain' monotoneStep
      (j.status :: ((rest.scanl (fun s op => applyJobOp op s) (some j')).filterMap
        (fun s => s.map ChatJob.status)))
    rw [ht]
    rw [ht] at ih
    refine List.chain'_cons.mpr ⟨?_, ih⟩
    have h1 := h.1
    cases hss : statusSetBy op with
    | none =>
      rw [hss] at hst
      simp at hst
      rw [hst]
      exact ⟨le_refl _, fun _ => rfl⟩
    | some st =>
      rw [hss] at hst
      simp at hst
      rw [hst]
      rw [hss] at h1
      simp only [decide_eq_true_eq] at h1
      exact h1

/-- Claim C1, amended: the job store itself performs no guarding, so status
monotonicity holds exactly for operation sequences in which every
status-writing operation (`updateJobStatus`, `completeJob`, `failJob`) is
itself an admissible step from the current status — in particular no
status-writing operation runs after the job reaches a terminal status.
Operations that do not write the status (`appendJobText`, `addJobPart`,
`updateJobPart`, `setJobParts`) may run at any point. -/
theorem claim_C1 (ops : List JobOp)
    (h : okOps (createJob "job-1" "chat-1") ops = true) :
    List.Chain' monotoneStep (statusTrace ops) := by
  rw [statusTrace]
  exact chain_statusTrace_aux ops _ h

/-- Witness for the amended C1: the operation sequence the orchestrator
actually performs — go streaming, append text, complete, then keep appending
after the terminal state — satisfies the admissibility condition, and its
status trace is monotonic. -/
theorem claim_C1_witness :
    okOps (createJob "job-1" "chat-1")
      [.updateStatus .streaming, .appendText "Hel", .appendText "lo",
        .complete "msg-1" (some "stop"), .appendText "late", .setParts []] = true ∧
    List.Chain' monotoneStep
      (statusTrace
        [.updateStatus .streaming, .appendText "Hel", .appendText "lo",
          .complete "msg-1" (some "stop"), .appendText "late", .setParts []]) :=
  ⟨by decide, claim_C1 _ (by decide)⟩

/-! ## C3/C4: the token budgeter -/

/-- The per-message token count used by the budgeter loop. -/
def msgTokens (tk : Tok) (m : UIMessage) : Nat :=
  (countMessageTokens tk true m).1

/-- The total token count of a history. -/
def totalTokens (tk : Tok) (messages : List UIMessage) : Nat :=
  (messages.map (msgTokens tk)).sum

theorem procMsg_id (tk : Tok) (m : UIMessage) : (procMsg tk m).id = m.id := rfl

theorem procMsg_parts (tk : Tok) (m : UIMessage) :
    (procMsg tk m).parts = m.parts.map (fun p => (countPart tk true p).2) := by
  simp [procMsg, countMessageTokens, List.map_map, Function.comp]

/-- Unfolding equation for one loop iteration: the first two branches recurse
identically (accept, or force below the 2-message floor), the third stops. -/
theorem truncateLoop_cons (tk : Tok) (maxTokens : Nat) (raw : UIMessage)
    (older kept : List UIMessage) (total : Nat) :
    truncateLoop tk maxTokens (raw :: older) kept total =
      if total + (countMessageTokens tk true raw).1 ≤ maxTokens then
        truncateLoop tk maxTokens older ((countMessageTokens tk true raw).2 :: kept)
          (total + (countMessageTokens tk true raw).1)
      else if kept.length < 2 then
        truncateLoop tk maxTokens older ((countMessageTokens tk true raw).2 :: kept)
          (total + (countMessageTokens tk true raw).1)
      else (kept, total) := rfl

/-- When everything left fits, the loop keeps every message (processed) and
accumulates the whole token sum. -/
theorem truncateLoop_fits (tk : Tok) (maxTokens : Nat) :
    ∀ (rev kept : List UIMessage) (total : Nat),
      total + (rev.map (msgTokens tk)).sum ≤ maxTokens →
      truncateLoop tk maxTokens rev kept total =
        ((rev.map (procMsg tk)).reverse ++ kept,
          total + (rev.map (msgTokens tk)).sum) := by
  intro rev
  induction rev with
  | nil => intro kept total _; simp [truncateLoop]
  | cons raw older ih =>
    intro kept total h
    simp only [List.map_cons, List.sum_cons] at h
    have hle : total + (countMessageTokens tk true raw).1 ≤ maxTokens := by
      have hr : (countMessageTokens tk true raw).1 = msgTokens tk raw := rfl
      rw [hr]
      omega
    rw [truncateLoop_cons, if_pos hle,
      ih ((countMessageTokens tk true raw).2 :: kept)
        (total + (countMessageTokens tk true raw).1) (by
          have hr : (countMessageTokens tk true raw).1 = msgTokens tk raw := rfl
          rw [hr]
          omega)]
    have hr2 : (countMessageTokens tk true raw).2 = procMsg tk raw := rfl
    have hr : (countMessageTokens tk true raw).1 = msgTokens tk raw := rfl
    rw [hr2, hr]
    simp only [List.map_cons, List.sum_cons, List.reverse_cons, List.append_assoc,
      List.singleton_append, Prod.mk.injEq]
    exact ⟨trivial, by omega⟩

/-- The loop keeps at least `min 2 (kept + remaining)` messages. -/
theorem truncateLoop_length (tk : Tok) (maxTokens : Nat) :
    ∀ (rev kept : List UIMessage) (total : Nat),
      min 2 (kept.length + rev.length) ≤
        (truncateLoop tk maxTokens rev kept total).1.length := by
  intro rev
  induction rev with
  | nil =>
    intro kept total
    simp [truncateLoop]
  | cons raw older ih =>
    intro kept total
    rw [truncateLoop_cons]
    split
    · have := ih ((countMessageTokens tk true raw).2 :: kept)
        (total + (countMessageTokens tk true raw).1)
      simp only [List.length_cons] at this ⊢
      omega
    · split
      · have := ih ((countMessageTokens tk true raw).2 :: kept)
          (total + (countMessageTokens tk true raw).1)
        simp only [List.length_cons] at this ⊢
        omega
      · simp only [List.length_cons]
        omega

/-- The kept list is the processed version of some prefix of `rev` (i.e. a
suffix of the original history), reversed, on top of the accumulator. -/
theorem truncateLoop_struct (tk : Tok) (maxTokens : Nat) :
    ∀ (rev kept : List UIMessage) (total : Nat),
      ∃ k, k ≤ rev.length ∧
        (truncateLoop tk maxTokens rev kept total).1 =
          ((rev.take k).map (procMsg tk)).reverse ++ kept := by
  intro rev
  induction rev with
  | nil => intro kept total; exact ⟨0, Nat.le_refl _, by simp [truncateLoop]⟩
  | cons raw older ih =>
    intro kept total
    rw [truncateLoop_cons]
    split
    · obtain ⟨k, hk, heq⟩ := ih ((countMessageTokens tk true raw).2 :: kept)
        (total + (countMessageTokens tk true raw).1)
      refine ⟨k + 1, by simpa using Nat.succ_le_succ hk, ?_⟩
      rw [heq]
      simp only [List.take_succ_cons, List.map_cons, List.reverse_cons,
        List.append_assoc, List.singleton_append]
      rfl
    · split
      · obtain ⟨k, hk, heq⟩ := ih ((countMessageTokens tk true raw).2 :: kept)
          (total + (countMessageTokens tk true raw).1)
        refine ⟨k + 1, by simpa using Nat.succ_le_succ hk, ?_⟩
        rw [heq]
        simp only [List.take_succ_cons, List.map_cons, List.reverse_cons,
          List.append_assoc, List.singleton_append]
        rfl
      · exact ⟨0, Nat.zero_le _, by simp⟩

/-- `truncateMessages` either returns the input unchanged or the processed
version of a suffix of the input. -/
theorem truncateMessages_cases (tk : Tok) (messages : List UIMessage)
    (maxTokens : Nat) :
    truncateMessages tk messages maxTokens = messages ∨
    ∃ k, k ≤ messages.length ∧
      truncateMessages tk messages maxTokens =
        ((messages.reverse.take k).map (procMsg tk)).reverse := by
  unfold truncateMessages
  split
  · exact Or.inl rfl
  · split
    · exact Or.inl rfl
    · obtain ⟨k, hk, heq⟩ := truncateLoop_struct tk maxTokens messages.reverse [] 0
      refine Or.inr ⟨k, by simpa using hk, ?_⟩
      rw [heq]
      simp

theorem reverse_take_reverse_suffix {α : Type _} (l : List α) (k : Nat) :
    ((l.reverse.take k).reverse) <:+ l :=
  ⟨(l.reverse.drop k).reverse, by
    rw [← List.reverse_append, List.take_append_drop, List.reverse_reverse]⟩

/-- A history whose total token count fits the ceiling is returned unchanged. -/
theorem truncateMessages_of_fits (tk : Tok) (messages : List UIMessage)
    (maxTokens : Nat) (hfit : totalTokens tk messages ≤ maxTokens) :
    truncateMessages tk messages maxTokens = messages := by
  unfold truncateMessages
  split
  · rfl
  · have hsum : (messages.reverse.map (msgTokens tk)).sum = totalTokens tk messages := by
      rw [List.map_reverse, List.sum_reverse]
      rfl
    have := truncateLoop_fits tk maxTokens messages.reverse [] 0
      (by rw [Nat.zero_add, hsum]; exact hfit)
    rw [this]
    simp

/-- Claim C3: for every history and token ceiling, `truncateMessages` keeps
at least 2 entries when at least 2 exist (even if their combined token count
exceeds the ceiling); the returned entries are a suffix of the history
(newest kept, identified by message id); and a history whose total token
count already fits is returned unchanged. -/
theorem claim_C3 (tk : Tok) (messages : List UIMessage) (maxTokens : Nat) :
    (2 ≤ messages.length → 2 ≤ (truncateMessages tk messages maxTokens).length) ∧
    ((truncateMessages tk messages maxTokens).map UIMessage.id) <:+
      (messages.map UIMessage.id) ∧
    (totalTokens tk messages ≤ maxTokens →
      truncateMessages tk messages maxTokens = messages) := by
  refine ⟨?_, ?_, ?_⟩
  · intro h2
    unfold truncateMessages
    split
    · exact h2
    · split
      · exact h2
      · have := truncateLoop_length tk maxTokens messages.reverse [] 0
        simp only [List.length_nil, List.length_reverse, Nat.zero_add] at this
        omega
  · rcases truncateMessages_cases tk messages maxTokens with h | ⟨k, _, h⟩
    · rw [h]
    · rw [h]
      have hid : (((messages.reverse.take k).map (procMsg tk)).reverse).map UIMessage.id =
          (((messages.map UIMessage.id).reverse.take k)).reverse := by
        rw [List.map_reverse, List.map_map]
        have : ((messages.reverse.take k).map (UIMessage.id ∘ procMsg tk)) =
            ((messages.reverse.take k).map UIMessage.id) := by
          apply List.map_congr_left
          intro m _
          rfl
        rw [this, List.map_take, List.map_reverse]
      rw [hid]
      exact reverse_take_reverse_suffix (messages.map UIMessage.id) k
  · exact truncateMessages_of_fits tk messages maxTokens

/-- Witness for C3: a 3-message history under a tiny ceiling still keeps 2
messages, and a history that fits the default ceiling is returned unchanged. -/
theorem claim_C3_witness :
    (2 ≤ ([{ id := "a", role := "user", parts := [{ type := "text", text := some "hello" }] },
           { id := "b", role := "assistant", parts := [{ type := "text", text := some "world" }] },
           { id := "c", role := "user", parts := [{ type := "text", text := some "again" }] }] :
        List UIMessage).length ∧
      2 ≤ (truncateMessages charTok
        [{ id := "a", role := "user", parts := [{ type := "text", text := some "hello" }] },
         { id := "b", role := "assistant", parts := [{ type := "text", text := some "world" }] },
         { id := "c", role := "user", parts := [{ type := "text", text := some "again" }] }]
        3).length) ∧
    (totalTokens charTok
        [{ id := "a", role := "user", parts := [{ type := "text", text := some "hi" }] },
         { id := "b", role := "assistant", parts := [{ type := "text", text := some "yo" }] }] ≤ 100 ∧
      truncateMessages charTok
        [{ id := "a", role := "user", parts := [{ type := "text", text := some "hi" }] },
         { id := "b", role := "assistant", parts := [{ type := "text", text := some "yo" }] }]
        100 =
        [{ id := "a", role := "user", parts := [{ type := "text", text := some "hi" }] },
         { id := "b", role := "assistant", parts := [{ type := "text", text := some "yo" }] }]) :=
  ⟨⟨by decide, (claim_C3 charTok _ 3).1 (by decide)⟩,
    ⟨by decide, (claim_C3 charTok _ 100).2.2 (by decide)⟩⟩

/-- A tool output string of 5001 tokens under `charTok` (over the 5000-token
per-output ceiling). -/
def bigOutputStr : String := String.mk (List.replicate 5001 'a')

/-- The oversized resolved tool part. -/
def bigToolPart : UIPart :=
  { type := "dynamic-tool", state := some "output-available",
    output := some (.str bigOutputStr) }

/-- An assistant message whose single resolved tool part carries the
oversized output. -/
def bigToolMsg : UIMessage :=
  { id := "m-big", role := "assistant", parts := [bigToolPart] }

theorem encode_charTok_length (s : String) : (charTok.encode s).length = s.length := by
  rw [show charTok.encode s = s.data.map Char.toNat from rfl, List.length_map]
  rfl

theorem bigOutputStr_length : bigOutputStr.length = 5001 := by
  rw [show bigOutputStr.length = (List.replicate 5001 'a').length from rfl,
    List.length_replicate]

theorem bigOutputStr_ne : bigOutputStr ≠ "" := by
  intro h
  have h2 := congrArg String.length h
  rw [bigOutputStr_length] at h2
  exact absurd h2 (by decide)

theorem bigOutput_truthy : (JsonVal.str bigOutputStr).truthy = true := by
  simp [JsonVal.truthy, bigOutputStr_ne]

theorem encode_bigOutput_length :
    (charTok.encode (JsonVal.str bigOutputStr).toStr).length = 5001 := by
  rw [show (JsonVal.str bigOutputStr).toStr = bigOutputStr from rfl,
    encode_charTok_length, bigOutputStr_length]

theorem countPart_bigToolPart_fst : (countPart charTok true bigToolPart).1 = 5001 := by
  show countPartTokens charTok bigToolPart = 5001
  unfold countPartTokens bigToolPart
  simp [bigOutput_truthy, encode_bigOutput_length]

theorem msgTokens_bigToolMsg : msgTokens charTok bigToolMsg = 5005 := by
  unfold msgTokens countMessageTokens bigToolMsg
  simp [countPart_bigToolPart_fst]

theorem totalTokens_bigToolMsg : totalTokens charTok [bigToolMsg] = 5005 := by
  simp [totalTokens, msgTokens_bigToolMsg]

/-- Claim C4, counterexample: a one-message history whose tool output exceeds
the 5000-token per-output ceiling but whose total fits the overall ceiling is
returned by `truncateMessages` completely unchanged — the oversized tool
output is NOT replaced by truncated text plus a marker. -/
theorem claim_C4_counterexample :
    5000 < (charTok.encode ((JsonVal.str bigOutputStr).toStr)).length ∧
    totalTokens charTok [bigToolMsg] ≤ 100000 ∧
    truncateMessages charTok [bigToolMsg] 100000 = [bigToolMsg] := by
  refine ⟨?_, ?_, ?_⟩
  · rw [encode_bigOutput_length]
    norm_num
  · rw [totalTokens_bigToolMsg]
    norm_num
  · exact truncateMessages_of_fits charTok [bigToolMsg] 100000
      (by rw [totalTokens_bigToolMsg]; norm_num)

theorem truncateToolOutput_big (tk : Tok) (v : JsonVal) (maxT : Nat)
    (h : maxT < (tk.encode v.toStr).length) :
    truncateToolOutput tk v maxT =
      (.str (tk.decode ((tk.encode v.toStr).take maxT) ++
        truncIndicator (tk.encode v.toStr).length maxT), true) := by
  unfold truncateToolOutput
  rw [if_neg (Nat.not_le.mpr h)]

theorem countPart_oversized (tk : Tok) (p : UIPart) (v : JsonVal)
    (htype : p.type = "dynamic-tool") (hout : p.output = some v)
    (htruthy : v.truthy = true) (hbig : 5000 < (tk.encode v.toStr).length) :
    (countPart tk true p).2 =
      { p with output := some (.str (tk.decode ((tk.encode v.toStr).take 5000) ++
          truncIndicator (tk.encode v.toStr).length 5000)) } := by
  have htr := truncateToolOutput_big tk v 5000 hbig
  show replacePartOutput tk true p = _
  unfold replacePartOutput
  rw [if_pos htype, hout]
  simp only [htruthy, htr, if_true]

/-- Claim C4, amended: oversized tool outputs are replaced by their truncated
text plus the explicit token-count marker only in the entries of a genuinely
truncated result: whenever `truncateMessages` returns fewer entries than it
was given, every returned entry is the processed form of an input entry in
which every tool output over the 5000-token per-output ceiling has been
replaced by its first 5000 tokens plus the marker.  (When the whole history
fits the overall ceiling — or forced inclusion keeps every entry — the
original history is returned with oversized tool outputs untouched, as the
counterexample shows.) -/
theorem claim_C4 (tk : Tok) (messages : List UIMessage) (maxTokens : Nat)
    (hshort : (truncateMessages tk messages maxTokens).length < messages.length) :
    ∀ mr ∈ truncateMessages tk messages maxTokens, ∃ m₀ ∈ messages,
      mr = procMsg tk m₀ ∧
      mr.parts = m₀.parts.map (fun p => (countPart tk true p).2) ∧
      ∀ p ∈ m₀.parts, ∀ v, p.type = "dynamic-tool" → p.output = some v →
        v.truthy = true → 5000 < (tk.encode v.toStr).length →
        (countPart tk true p).2 =
          { p with output := some (.str (tk.decode ((tk.encode v.toStr).take 5000) ++
              truncIndicator (tk.encode v.toStr).length 5000)) } := by
  intro mr hmr
  rcases truncateMessages_cases tk messages maxTokens with h | ⟨k, _, h⟩
  · rw [h] at hshort
    omega
  · rw [h] at hmr
    rw [List.mem_reverse] at hmr
    obtain ⟨m₀, hm₀, rfl⟩ := List.mem_map.mp hmr
    have hm₀' : m₀ ∈ messages := by
      have := List.mem_of_mem_take hm₀
      rwa [List.mem_reverse] at this
    refine ⟨m₀, hm₀', rfl, procMsg_parts tk m₀, ?_⟩
    intro p _ v htype hout htruthy hbig
    exact countPart_oversized tk p v htype hout htruthy hbig

/-- The old user message of the C4 witness history (dropped). -/
def demoOldMsg : UIMessage :=
  { id := "m-old", role := "user", parts := [{ type := "text", text := some "hello there" }] }

/-- The recent user message of the C4 witness history (kept). -/
def demoNewMsg : UIMessage :=
  { id := "m-new", role := "user", parts := [{ type := "text", text := some "hi" }] }

/-- A small history for the C4 witness: an old user message (dropped), the
oversized-tool assistant message and a recent user message (kept). -/
def demoMsgsC4 : List UIMessage := [demoOldMsg, bigToolMsg, demoNewMsg]

/-- An arbitrary default message for indexing. -/
def dummyMsg : UIMessage := { id := "", role := "", parts := [] }

theorem truncC4_result :
    truncateMessages charTok demoMsgsC4 10 = [procMsg charTok bigToolMsg, demoNewMsg] := by
  have hNew1 : (countMessageTokens charTok true demoNewMsg).1 = 6 := by decide
  have hNew2 : (countMessageTokens charTok true demoNewMsg).2 = demoNewMsg := by decide
  have hOld1 : (countMessageTokens charTok true demoOldMsg).1 = 15 := by decide
  have hBig1 : (countMessageTokens charTok true bigToolMsg).1 = 5005 :=
    msgTokens_bigToolMsg
  have hrev : demoMsgsC4.reverse = [demoNewMsg, bigToolMsg, demoOldMsg] := by rfl
  have l0 : truncateLoop charTok 10 [demoNewMsg, bigToolMsg, demoOldMsg] [] 0 =
      truncateLoop charTok 10 [bigToolMsg, demoOldMsg] [demoNewMsg] (0 + 6) := by
    rw [truncateLoop_cons, hNew1, hNew2, if_pos (by norm_num)]
  have l1 : truncateLoop charTok 10 [bigToolMsg, demoOldMsg] [demoNewMsg] (0 + 6) =
      truncateLoop charTok 10 [demoOldMsg]
        [(countMessageTokens charTok true bigToolMsg).2, demoNewMsg] (0 + 6 + 5005) := by
    rw [truncateLoop_cons, hBig1, if_neg (by norm_num), if_pos (by norm_num)]
  have l2 : truncateLoop charTok 10 [demoOldMsg]
        [(countMessageTokens charTok true bigToolMsg).2, demoNewMsg] (0 + 6 + 5005) =
      ([(countMessageTokens charTok true bigToolMsg).2, demoNewMsg], 0 + 6 + 5005) := by
    rw [truncateLoop_cons, hOld1, if_neg (by norm_num), if_neg (by norm_num)]
  unfold truncateMessages
  rw [hrev, l0, l1, l2, if_neg (by decide), if_neg (by decide)]
  rfl

/-- Witness for the amended C4: under a 10-token ceiling the oldest message
is dropped, and the kept oversized-tool entry is the processed form of
`bigToolMsg` with the marker substituted. -/
theorem claim_C4_witness :
    (truncateMessages charTok demoMsgsC4 10).length < demoMsgsC4.length ∧
    (∃ m₀ ∈ demoMsgsC4,
      (truncateMessages charTok demoMsgsC4 10).getD 0 dummyMsg = procMsg charTok m₀ ∧
      ((truncateMessages charTok demoMsgsC4 10).getD 0 dummyMsg).parts =
        m₀.parts.map (fun p => (countPart charTok true p).2) ∧
      ∀ p ∈ m₀.parts, ∀ v, p.type = "dynamic-tool" → p.output = some v →
        v.truthy = true → 5000 < (charTok.encode v.toStr).length →
        (countPart charTok true p).2 =
          { p with output := some (.str (charTok.decode
              ((charTok.encode v.toStr).take 5000) ++
              truncIndicator (charTok.encode v.toStr).length 5000)) }) :=
  ⟨by rw [truncC4_result]; exact by decide,
    claim_C4 charTok demoMsgsC4 10 (by rw [truncC4_result]; exact by decide) _
      (by rw [truncC4_result]; exact List.mem_cons_self _ _)⟩

/-! ## C5: incomplete tool calls are filtered before budgeting -/

/-- No assistant turn carries a dangling tool call: every `dynamic-tool`
part is in `output-available` state with an output or result attached. -/
def noDanglingTool (m : UIMessage) : Prop :=
  m.role = "assistant" → ∀ p ∈ m.parts, p.type = "dynamic-tool" →
    p.state = some "output-available" ∧ (p.output.isSome ∨ p.result.isSome)

theorem filterMsg_noDangling (m : UIMessage) : noDanglingTool (filterMsg m) := by
  intro hrole p hp htype
  unfold filterMsg at hrole hp
  by_cases hr : m.role ≠ "assistant"
  · rw [if_pos hr] at hrole
    exact absurd hrole hr
  · rw [if_neg hr] at hp
    split at hp
    · simp only [List.mem_singleton] at hp
      rw [hp] at htype
      exact absurd htype (by decide)
    · simp only [List.mem_filter] at hp
      have hk := hp.2
      unfold keepPart at hk
      rw [if_pos htype] at hk
      rw [Bool.and_eq_true, Bool.or_eq_true] at hk
      refine ⟨?_, ?_⟩
      · have := hk.1
        rwa [beq_iff_eq] at this
      · rcases hk.2 with h | h
        · exact Or.inl h
        · exact Or.inr h

theorem replacePartOutput_fields (tk : Tok) (b : Bool) (p : UIPart) :
    (replacePartOutput tk b p).type = p.type ∧
    (replacePartOutput tk b p).state = p.state ∧
    (replacePartOutput tk b p).result = p.result ∧
    (replacePartOutput tk b p).output.isSome = p.output.isSome := by
  unfold replacePartOutput
  refine ⟨?_, ?_, ?_, ?_⟩ <;>
    (repeat' split) <;>
    first
      | rfl
      | simp_all

theorem countPart_snd_fields (tk : Tok) (b : Bool) (p : UIPart) :
    ((countPart tk b p).2).type = p.type ∧
    ((countPart tk b p).2).state = p.state ∧
    ((countPart tk b p).2).result = p.result ∧
    ((countPart tk b p).2).output.isSome = p.output.isSome :=
  replacePartOutput_fields tk b p

theorem procMsg_noDangling (tk : Tok) (m : UIMessage) (h : noDanglingTool m) :
    noDanglingTool (procMsg tk m) := by
  intro hrole p hp htype
  rw [procMsg_parts] at hp
  obtain ⟨p₀, hp₀, rfl⟩ := List.mem_map.mp hp
  obtain ⟨hty, hst, hres, hout⟩ := countPart_snd_fields tk true p₀
  rw [hty] at htype
  have hrole₀ : m.role = "assistant" := hrole
  obtain ⟨h1, h2⟩ := h hrole₀ p₀ hp₀ htype
  refine ⟨by rw [hst, h1], ?_⟩
  rcases h2 with h2 | h2
  · exact Or.inl (by rw [hout]; exact h2)
  · exact Or.inr (by rw [hres]; exact h2)

theorem getD_map_filterMsg :
    ∀ (l : List UIMessage) (i : Nat), i < l.length →
      (l.map filterMsg).getD i dummyMsg = filterMsg (l.getD i dummyMsg) := by
  intro l
  induction l with
  | nil => intro i hi; simp at hi
  | cons m rest ih =>
    intro i hi
    cases i with
    | zero => rfl
    | succ i =>
      simp only [List.map_cons, List.getD_cons_succ]
      exact ih i (by simpa using Nat.lt_of_succ_lt_succ hi)

/-- Claim C5: before the outbound provider call is built, the history is
passed through `filterIncompleteToolCalls` and only then token-budgeted
(`prepareOutbound`).  (1) In the outbound history, no assistant turn carries
a `dynamic-tool` part outside `output-available` state or without an
output/result.  (2) Any assistant turn with at least one part of which all
parts are removed by the filter has its parts replaced by the single
interruption placeholder.  (3) The filter acts per message via `filterMsg`. -/
theorem claim_C5 (tk : Tok) (maxTokens : Nat) (messages : List UIMessage) :
    (∀ m ∈ prepareOutbound tk maxTokens messages, m.role = "assistant" →
      ∀ p ∈ m.parts, p.type = "dynamic-tool" →
        p.state = some "output-available" ∧ (p.output.isSome ∨ p.result.isSome)) ∧
    (∀ m : UIMessage, m.role = "assistant" → m.parts ≠ [] →
      (∀ p ∈ m.parts, keepPart p = false) →
      (filterMsg m).parts = [interruptionPlaceholder]) ∧
    (∀ i, i < messages.length →
      (filterIncompleteToolCalls messages).getD i dummyMsg =
        filterMsg (messages.getD i dummyMsg)) := by
  refine ⟨?_, ?_, ?_⟩
  · intro m hm
    have hdangling : noDanglingTool m := by
      unfold prepareOutbound at hm
      rcases truncateMessages_cases tk (filterIncompleteToolCalls messages) maxTokens
        with h | ⟨k, _, h⟩
      · rw [h] at hm
        obtain ⟨m₀, _, rfl⟩ := List.mem_map.mp hm
        exact filterMsg_noDangling m₀
      · rw [h] at hm
        rw [List.mem_reverse] at hm
        obtain ⟨m₁, hm₁, rfl⟩ := List.mem_map.mp hm
        have hm₁' : m₁ ∈ filterIncompleteToolCalls messages := by
          have := List.mem_of_mem_take hm₁
          rwa [List.mem_reverse] at this
        obtain ⟨m₀, _, rfl⟩ := List.mem_map.mp hm₁'
        exact procMsg_noDangling tk _ (filterMsg_noDangling m₀)
    exact hdangling
  · intro m hrole hne hall
    have hfil : m.parts.filter keepPart = [] := by
      rw [List.filter_eq_nil_iff]
      intro p hp
      rw [hall p hp]
      exact Bool.false_ne_true
    unfold filterMsg
    rw [if_neg (not_not_intro hrole), hfil,
      if_pos (by simp [List.isEmpty_iff, hne])]
  · exact getD_map_filterMsg messages

/-- An arbitrary default part for indexing. -/
def dummyPart : UIPart := { type := "" }

/-- The assistant turn with an unresolved (input-available) tool call. -/
def unresolvedToolMsg : UIMessage :=
  { id := "a1", role := "assistant",
    parts := [{ type := "dynamic-tool", toolName := some "lookup",
                toolCallId := some "1", state := some "input-available" }] }

/-- An assistant turn with a resolved tool call (kept by the filter). -/
def resolvedToolMsg : UIMessage :=
  { id := "a2", role := "assistant",
    parts := [{ type := "dynamic-tool", toolName := some "lookup",
                toolCallId := some "2", state := some "output-available",
                output := some (.str "42") }] }

/-- The C5 witness history: user, assistant-with-unresolved-tool-call,
assistant-with-resolved-tool-call, user. -/
def demoMsgsC5 : List UIMessage :=
  [{ id := "u1", role := "user", parts := [{ type := "text", text := some "question" }] },
    unresolvedToolMsg,
    resolvedToolMsg,
    { id := "u2", role := "user", parts := [{ type := "text", text := some "follow-up" }] }]

/-- Witness for C5 on the spec scenario history. -/
theorem claim_C5_witness :
    ((prepareOutbound charTok 100000 demoMsgsC5).getD 2 dummyMsg ∈
        prepareOutbound charTok 100000 demoMsgsC5 ∧
      ((prepareOutbound charTok 100000 demoMsgsC5).getD 2 dummyMsg).role = "assistant" ∧
      (((prepareOutbound charTok 100000 demoMsgsC5).getD 2 dummyMsg).parts.getD 0 dummyPart ∈
        ((prepareOutbound charTok 100000 demoMsgsC5).getD 2 dummyMsg).parts) ∧
      (((prepareOutbound charTok 100000 demoMsgsC5).getD 2 dummyMsg).parts.getD 0
        dummyPart).type = "dynamic-tool" ∧
      ((((prepareOutbound charTok 100000 demoMsgsC5).getD 2 dummyMsg).parts.getD 0
          dummyPart).state = some "output-available" ∧
        ((((prepareOutbound charTok 100000 demoMsgsC5).getD 2 dummyMsg).parts.getD 0
            dummyPart).output.isSome ∨
          (((prepareOutbound charTok 100000 demoMsgsC5).getD 2 dummyMsg).parts.getD 0
            dummyPart).result.isSome))) ∧
    (unresolvedToolMsg.role = "assistant" ∧ unresolvedToolMsg.parts ≠ [] ∧
      (∀ p ∈ unresolvedToolMsg.parts, keepPart p = false) ∧
      (filterMsg unresolvedToolMsg).parts = [interruptionPlaceholder]) ∧
    (1 < demoMsgsC5.length ∧
      (filterIncompleteToolCalls demoMsgsC5).getD 1 dummyMsg =
        filterMsg (demoMsgsC5.getD 1 dummyMsg)) :=
  ⟨⟨by decide, by decide, by decide, by decide,
      (claim_C5 charTok 100000 demoMsgsC5).1
        ((prepareOutbound charTok 100000 demoMsgsC5).getD 2 dummyMsg) (by decide)
        (by decide)
        (((prepareOutbound charTok 100000 demoMsgsC5).getD 2 dummyMsg).parts.getD 0
          dummyPart)
        (by decide) (by decide)⟩,
    ⟨by decide, by decide, by decide,
      (claim_C5 charTok 100000 demoMsgsC5).2.1 unresolvedToolMsg (by decide) (by decide)
        (by decide)⟩,
    ⟨by decide, (claim_C5 charTok 100000 demoMsgsC5).2.2 1 (by decide)⟩⟩

/-! ## C2: the exhausted-retries warning never fires -/

/-- Claim C2 (code bug evaluation): three consecutive ambiguous
interruptions on the same message trigger exactly 2 automatic retries with
exponential backoff (1000 ms, then 2000 ms); but when the retries are
exhausted, NO partial-result warning is emitted, because `onFinish` resets
the retry counter to 0 before the `retryCountRef.current >= maxRetries`
check (chat.tsx lines 271 and 279). -/
theorem claim_C2 :
    (runAttempts initClient
      [ambiguousInterruption, ambiguousInterruption, ambiguousInterruption]).2 =
      [.infoRetryToast 2 3, .scheduleRetry 1000, .infoRetryToast 3 3,
        .scheduleRetry 2000, .fetchHistory] ∧
    ((runAttempts initClient
      [ambiguousInterruption, ambiguousInterruption, ambiguousInterruption]).2.countP
        isRetryAction) = 2 ∧
    ((runAttempts initClient
      [ambiguousInterruption, ambiguousInterruption, ambiguousInterruption]).2.countP
        isWarnAction) = 0 := by
  decide

/-! ## C9: the reasoning part stays ahead of all text parts -/

/-- An arbitrary default part for indexing the final part list. -/
def dummyJobPart : JobPart := { type := "" }

/-- The reasoning-position invariant of the stream loop: when no reasoning
part exists none is in the list, and once one exists it is the head of
`orderedParts` (it was unshifted there) and nothing else is a reasoning
part. -/
def reasoningFirstOn : Option Nat → List (Nat × JobPart) → Prop
  | none, order => ∀ e ∈ order, e.2.type ≠ "reasoning"
  | some rid, order => ∃ p rest, order = (rid, p) :: rest ∧ p.type = "reasoning" ∧
      ∀ e ∈ rest, e.2.type ≠ "reasoning"

theorem updateById_no_reasoning (n : Nat) (f : JobPart → JobPart)
    (hf : ∀ p, (f p).type = p.type) :
    ∀ (l : List (Nat × JobPart)), (∀ e ∈ l, e.2.type ≠ "reasoning") →
      ∀ e ∈ updateById n f l, e.2.type ≠ "reasoning" := by
  intro l
  induction l with
  | nil => intro _ e he; simp [updateById] at he
  | cons x l ih =>
    intro h e he
    unfold updateById at he
    split at he
    · rcases List.mem_cons.mp he with rfl | hmem
      · show (f x.2).type ≠ "reasoning"
        rw [hf]
        exact h x (List.mem_cons_self _ _)
      · exact h e (List.mem_cons_of_mem _ hmem)
    · rcases List.mem_cons.mp he with rfl | hmem
      · exact h e (List.mem_cons_self _ _)
      · exact ih (fun e' he' => h e' (List.mem_cons_of_mem _ he')) e hmem

theorem reasoningFirst_update (r : Option Nat) (n : Nat) (f : JobPart → JobPart)
    (hf : ∀ p, (f p).type = p.type) (l : List (Nat × JobPart))
    (h : reasoningFirstOn r l) : reasoningFirstOn r (updateById n f l) := by
  cases r with
  | none => exact updateById_no_reasoning n f hf l h
  | some rid =>
    obtain ⟨p, rest, rfl, hp, hrest⟩ := h
    unfold updateById
    split
    · exact ⟨f p, rest, rfl, by rw [hf]; exact hp, hrest⟩
    · exact ⟨p, updateById n f rest, rfl, hp, updateById_no_reasoning n f hf rest hrest⟩

theorem reasoningFirst_push (r : Option Nat) (n : Nat) (q : JobPart)
    (hq : q.type ≠ "reasoning") (l : List (Nat × JobPart))
    (h : reasoningFirstOn r l) : reasoningFirstOn r (l ++ [(n, q)]) := by
  cases r with
  | none =>
    intro e he
    rcases List.mem_append.mp he with hmem | hmem
    · exact h e hmem
    · rw [List.mem_singleton] at hmem
      rw [hmem]
      exact hq
  | some rid =>
    obtain ⟨p, rest, rfl, hp, hrest⟩ := h
    refine ⟨p, rest ++ [(n, q)], rfl, hp, ?_⟩
    intro e he
    rcases List.mem_append.mp he with hmem | hmem
    · exact hrest e hmem
    · rw [List.mem_singleton] at hmem
      rw [hmem]
      exact hq

theorem stepEvent_reasoningFirst (e : StreamEvent) (s : OrchState)
    (h : reasoningFirstOn s.reasoningId s.order) :
    reasoningFirstOn (stepEvent e s).reasoningId (stepEvent e s).order := by
  cases e with
  | textDelta td tf =>
    simp only [stepEvent]
    cases td.orElse fun _ => tf with
    | none => exact h
    | some content =>
      cases s.currentText with
      | some cid =>
        exact reasoningFirst_update s.reasoningId cid
          (fun p => { p with text := some (p.text.getD "" ++ content) })
          (fun p => rfl) s.order h
      | none =>
        exact reasoningFirst_push s.reasoningId s.nextId
          { type := "text", text := some content } (by simp) s.order h
  | reasoningDelta td tf =>
    simp only [stepEvent]
    cases td.orElse fun _ => tf with
    | none => exact h
    | some content =>
      cases hrid : s.reasoningId with
      | some rid =>
        rw [hrid] at h
        exact reasoningFirst_update (some rid) rid
          (fun p =>
            { p with
              text := some (((lookupId s.order rid).bind JobPart.text).getD "" ++ content) })
          (fun p => rfl) s.order h
      | none =>
        rw [hrid] at h
        exact ⟨{ type := "reasoning", text := some content }, s.order, rfl, rfl, h⟩
  | toolCall tcid name args input =>
    exact reasoningFirst_push s.reasoningId s.nextId
      (newToolPart tcid name args input) (by simp [newToolPart]) s.order h
  | toolResult tcid result output =>
    simp only [stepEvent]
    cases assocGet s.toolCalls tcid with
    | none => exact h
    | some tid =>
      exact reasoningFirst_update s.reasoningId tid
        (resolveToolFields (result.orElse fun _ => output)) (fun p => rfl) s.order h
  | sourceEvt url =>
    exact reasoningFirst_push s.reasoningId s.nextId
      { type := "source-url", url := some url } (by simp) s.order h
  | finishEvt r => exact h
  | stepStart =>
    exact reasoningFirst_push s.reasoningId s.nextId { type := "step-start" }
      (by simp) s.order h
  | stepFinish => exact h
  | textStart => exact h
  | textEnd => exact h
  | errorEvt m => exact h
  | unknown t => exact h

theorem runEvents_reasoningFirst (jid cid : String) (events : List StreamEvent) :
    reasoningFirstOn (runEvents jid cid events).reasoningId
      (runEvents jid cid events).order := by
  rw [runEvents]
  generalize hs : initOrch jid cid = s₀
  have h₀ : reasoningFirstOn s₀.reasoningId s₀.order := by
    rw [← hs]
    intro e he
    simp [initOrch] at he
  clear hs
  induction events generalizing s₀ with
  | nil => exact h₀
  | cons e l ih =>
    rw [List.foldl_cons]
    exact ih _ (stepEvent_reasoningFirst e s₀ h₀)

/-- `finalParts` is `partsOf` plus possibly one trailing fallback text part
(with no tool-call id). -/
theorem finalParts_cases (s : OrchState) (rt : Option String) :
    ∃ tl, finalParts s rt = partsOf s ++ tl ∧
      ∀ q ∈ tl, q.type = "text" ∧ q.toolCallId = none := by
  unfold finalParts
  cases rt with
  | none => exact ⟨[], by simp, by simp⟩
  | some r =>
    by_cases hc : r ≠ "" ∧
      ((s.currentText.bind (lookupId s.order)).bind JobPart.text).getD "" = ""
    · refine ⟨[{ type := "text", text := some r }], ?_, ?_⟩
      · dsimp only
        rw [if_pos hc]
      · intro q hq
        rw [List.mem_singleton] at hq
        rw [hq]
        exact ⟨rfl, rfl⟩
    · refine ⟨[], ?_, by simp⟩
      dsimp only
      rw [if_neg hc, List.append_nil]

theorem getD_mem {α : Type _} (l : List α) (n : Nat) (d : α) (h : n < l.length) :
    l.getD n d ∈ l := by
  rw [List.getD_eq_getElem l d h]
  exact List.getElem_mem h

theorem getD_mem_drop_one {α : Type _} (l : List α) (k : Nat) (d : α)
    (hk : k < l.length) (hpos : 0 < k) : l.getD k d ∈ l.drop 1 := by
  cases l with
  | nil => simp at hk
  | cons a t =>
    cases k with
    | zero => exact absurd hpos (lt_irrefl 0)
    | succ k =>
      rw [List.getD_cons_succ, List.drop_succ_cons, List.drop_zero]
      exact getD_mem t k d (by rw [List.length_cons] at hk; omega)

/-- In the final part list, only index 0 can hold a reasoning part. -/
theorem finalParts_reasoning_head (jid cid : String) (events : List StreamEvent)
    (rt : Option String) (k : Nat)
    (hk : k < (finalParts (runEvents jid cid events) rt).length)
    (hr : ((finalParts (runEvents jid cid events) rt).getD k dummyJobPart).type =
      "reasoning") : k = 0 := by
  by_contra hk0
  have hpos : 0 < k := Nat.pos_of_ne_zero hk0
  obtain ⟨tl, hfl, htl⟩ := finalParts_cases (runEvents jid cid events) rt
  have hinv := runEvents_reasoningFirst jid cid events
  have hdrop : ∀ q ∈ (finalParts (runEvents jid cid events) rt).drop 1,
      q.type ≠ "reasoning" := by
    rw [hfl]
    cases hr0 : (runEvents jid cid events).reasoningId with
    | none =>
      rw [hr0] at hinv
      intro q hq
      have hq' : q ∈ partsOf (runEvents jid cid events) ++ tl :=
        List.mem_of_mem_drop hq
      rcases List.mem_append.mp hq' with hmem | hmem
      · obtain ⟨e, he, rfl⟩ := List.mem_map.mp hmem
        exact hinv e he
      · rw [(htl q hmem).1]
        decide
    | some rid =>
      rw [hr0] at hinv
      obtain ⟨p, rest, horder, _, hrest⟩ := hinv
      have hparts : partsOf (runEvents jid cid events) = p :: rest.map Prod.snd := by
        rw [partsOf, horder]
        rfl
      rw [hparts]
      intro q hq
      rw [List.cons_append, List.drop_succ_cons, List.drop_zero] at hq
      rcases List.mem_append.mp hq with hmem | hmem
      · obtain ⟨e, he, rfl⟩ := List.mem_map.mp hmem
        exact hrest e he
      · rw [(htl q hmem).1]
        decide
  exact absurd hr
    (hdrop _ (getD_mem_drop_one (finalParts (runEvents jid cid events) rt) k
      dummyJobPart hk hpos))

/-- Claim C9: in the final part list produced when the stream ends, every
reasoning part precedes every text part, regardless of how the underlying
text-delta and reasoning events interleave (in particular every text part
opened after the reasoning part was first opened). -/
theorem claim_C9 (jid cid : String) (events : List StreamEvent) (rt : Option String)
    (i j : Nat)
    (hi : i < (finalParts (runEvents jid cid events) rt).length)
    (hj : j < (finalParts (runEvents jid cid events) rt).length)
    (hri : ((finalParts (runEvents jid cid events) rt).getD i dummyJobPart).type =
      "reasoning")
    (htj : ((finalParts (runEvents jid cid events) rt).getD j dummyJobPart).type =
      "text") : i < j := by
  have hi0 : i = 0 := finalParts_reasoning_head jid cid events rt i hi hri
  have hj0 : j ≠ 0 := by
    intro hj0
    rw [hj0] at htj
    rw [hi0] at hri
    rw [hri] at htj
    exact absurd htj (by decide)
  rw [hi0]
  exact Nat.pos_of_ne_zero hj0

/-! ## C6: tool results resolve the open call in place, idempotently -/

theorem assocGet_cons (e : String × Nat) (l : List (String × Nat)) (k : String) :
    assocGet (e :: l) k = if e.1 = k then some e.2 else assocGet l k := rfl

theorem assocSet_cons (k : String) (v : Nat) (e : String × Nat)
    (l : List (String × Nat)) :
    assocSet k v (e :: l) = if e.1 = k then (k, v) :: l else e :: assocSet k v l := rfl

theorem lookupId_cons (e : Nat × JobPart) (l : List (Nat × JobPart)) (n : Nat) :
    lookupId (e :: l) n = if e.1 = n then some e.2 else lookupId l n := rfl

theorem updateById_cons (n : Nat) (f : JobPart → JobPart) (e : Nat × JobPart)
    (l : List (Nat × JobPart)) :
    updateById n f (e :: l) =
      if e.1 = n then (e.1, f e.2) :: l else e :: updateById n f l := rfl

theorem updateFirst_cons (matcher : JobPart → Bool) (f : JobPart → JobPart)
    (p : JobPart) (l : List JobPart) :
    updateFirst matcher f (p :: l) =
      if matcher p then f p :: l else p :: updateFirst matcher f l := rfl

theorem assocGet_assocSet (k : String) (v : Nat) :
    ∀ (l : List (String × Nat)) (k' : String),
      assocGet (assocSet k v l) k' = if k' = k then some v else assocGet l k' := by
  intro l
  induction l with
  | nil =>
    intro k'
    show assocGet [(k, v)] k' = _
    rw [assocGet_cons]
    by_cases h : k' = k
    · rw [if_pos h, if_pos h.symm]
    · rw [if_neg h, if_neg (fun hh => h hh.symm)]
  | cons e l ih =>
    intro k'
    rw [assocSet_cons]
    by_cases he : e.1 = k
    · rw [if_pos he, assocGet_cons]
      by_cases h : k' = k
      · rw [if_pos h, if_pos h.symm]
      · rw [if_neg h, if_neg (fun hh => h hh.symm), assocGet_cons,
          if_neg (by intro hh; rw [he] at hh; exact h hh.symm)]
    · rw [if_neg he, assocGet_cons, assocGet_cons, ih]
      by_cases h : e.1 = k'
      · rw [if_pos h, if_pos h, if_neg (by intro hh; rw [← h] at hh; exact he hh)]
      · rw [if_neg h, if_neg h]

theorem lookupId_append_single (x : Nat × JobPart) (n : Nat) :
    ∀ (l : List (Nat × JobPart)),
      lookupId (l ++ [x]) n =
        match lookupId l n with
        | some p => some p
        | none => if x.1 = n then some x.2 else none := by
  intro l
  induction l with
  | nil => rfl
  | cons e l ih =>
    show lookupId (e :: (l ++ [x])) n = _
    rw [lookupId_cons, lookupId_cons]
    by_cases h : e.1 = n
    · rw [if_pos h, if_pos h]
    · rw [if_neg h, if_neg h, ih]

theorem lookupId_updateById (n : Nat) (f : JobPart → JobPart) :
    ∀ (l : List (Nat × JobPart)) (n' : Nat),
      lookupId (updateById n f l) n' =
        if n' = n then (lookupId l n').map f else lookupId l n' := by
  intro l
  induction l with
  | nil =>
    intro n'
    show (none : Option JobPart) = if n' = n then Option.map f none else none
    by_cases h : n' = n
    · rw [if_pos h]
      rfl
    · rw [if_neg h]
  | cons e l ih =>
    intro n'
    rw [updateById_cons]
    by_cases he : e.1 = n
    · rw [if_pos he, lookupId_cons, lookupId_cons]
      by_cases h : e.1 = n'
      · rw [if_pos h, if_pos h, if_pos (by omega)]
        rfl
      · rw [if_neg h, if_neg h, if_neg (by omega)]
    · rw [if_neg he, lookupId_cons, lookupId_cons]
      by_cases h : e.1 = n'
      · rw [if_pos h, if_pos h, if_neg (by omega)]
      · rw [if_neg h, if_neg h, ih]

theorem lookupId_none_of_fresh (n : Nat) :
    ∀ (l : List (Nat × JobPart)), (∀ e ∈ l, e.1 < n) → lookupId l n = none := by
  intro l
  induction l with
  | nil => intro _; rfl
  | cons e l ih =>
    intro h
    rw [lookupId_cons, if_neg, ih (fun e' he' => h e' (List.mem_cons_of_mem _ he'))]
    have := h e (List.mem_cons_self _ _)
    omega

theorem lookupId_middle (tid : Nat) (P : JobPart) :
    ∀ (l₁ : List (Nat × JobPart)) (l₂ : List (Nat × JobPart)),
      (∀ e ∈ l₁, e.1 ≠ tid) →
      lookupId (l₁ ++ (tid, P) :: l₂) tid = some P := by
  intro l₁
  induction l₁ with
  | nil =>
    intro l₂ _
    show lookupId ((tid, P) :: l₂) tid = some P
    rw [lookupId_cons, if_pos rfl]
  | cons e l₁ ih =>
    intro l₂ h
    show lookupId (e :: (l₁ ++ (tid, P) :: l₂)) tid = some P
    rw [lookupId_cons, if_neg (h e (List.mem_cons_self _ _)),
      ih l₂ (fun e' he' => h e' (List.mem_cons_of_mem _ he'))]

theorem updateById_keys (n : Nat) (f : JobPart → JobPart) :
    ∀ (l : List (Nat × JobPart)),
      (updateById n f l).map Prod.fst = l.map Prod.fst := by
  intro l
  induction l with
  | nil => rfl
  | cons e l ih =>
    rw [updateById_cons]
    by_cases he : e.1 = n
    · rw [if_pos he]
      rfl
    · rw [if_neg he, List.map_cons, List.map_cons, ih]

theorem mem_updateById (n : Nat) (f : JobPart → JobPart) :
    ∀ (l : List (Nat × JobPart)) (x : Nat × JobPart), x ∈ updateById n f l →
      x ∈ l ∨ ∃ y ∈ l, x = (y.1, f y.2) := by
  intro l
  induction l with
  | nil => intro x hx; exact absurd hx (List.not_mem_nil x)
  | cons e l ih =>
    intro x hx
    rw [updateById_cons] at hx
    by_cases he : e.1 = n
    · rw [if_pos he] at hx
      rcases List.mem_cons.mp hx with rfl | hmem
      · exact Or.inr ⟨e, List.mem_cons_self _ _, rfl⟩
      · exact Or.inl (List.mem_cons_of_mem _ hmem)
    · rw [if_neg he] at hx
      rcases List.mem_cons.mp hx with rfl | hmem
      · exact Or.inl (List.mem_cons_self _ _)
      · rcases ih x hmem with h | ⟨y, hy, hxy⟩
        · exact Or.inl (List.mem_cons_of_mem _ h)
        · exact Or.inr ⟨y, List.mem_cons_of_mem _ hy, hxy⟩

theorem updateById_hit (n : Nat) (f : JobPart → JobPart) (P : JobPart) :
    ∀ (l₁ l₂ : List (Nat × JobPart)), (∀ e ∈ l₁, e.1 ≠ n) →
      updateById n f (l₁ ++ (n, P) :: l₂) = l₁ ++ (n, f P) :: l₂ := by
  intro l₁
  induction l₁ with
  | nil =>
    intro l₂ _
    show updateById n f ((n, P) :: l₂) = (n, f P) :: l₂
    rw [updateById_cons, if_pos rfl]
  | cons e l₁ ih =>
    intro l₂ h
    show updateById n f (e :: (l₁ ++ (n, P) :: l₂)) = e :: (l₁ ++ (n, f P) :: l₂)
    rw [updateById_cons, if_neg (h e (List.mem_cons_self _ _)),
      ih l₂ (fun e' he' => h e' (List.mem_cons_of_mem _ he'))]

theorem updateById_decomp (n : Nat) (f : JobPart → JobPart) (x : Nat × JobPart)
    (hx : x.1 ≠ n) :
    ∀ (l₁ l₂ : List (Nat × JobPart)),
      ∃ l₁' l₂', updateById n f (l₁ ++ x :: l₂) = l₁' ++ x :: l₂' ∧
        (∀ e ∈ l₁', e ∈ l₁ ∨ ∃ y ∈ l₁, e = (y.1, f y.2)) ∧
        (∀ e ∈ l₂', e ∈ l₂ ∨ ∃ y ∈ l₂, e = (y.1, f y.2)) ∧
        l₁'.map Prod.fst = l₁.map Prod.fst := by
  intro l₁
  induction l₁ with
  | nil =>
    intro l₂
    refine ⟨[], updateById n f l₂, ?_, fun e he => absurd he (List.not_mem_nil e),
      ?_, rfl⟩
    · show updateById n f (x :: l₂) = x :: updateById n f l₂
      rw [updateById_cons, if_neg hx]
    · intro e he
      exact mem_updateById n f l₂ e he
  | cons e l₁ ih =>
    intro l₂
    by_cases he : e.1 = n
    · refine ⟨(e.1, f e.2) :: l₁, l₂, ?_, ?_, fun q hq => Or.inl hq, ?_⟩
      · show updateById n f (e :: (l₁ ++ x :: l₂)) = (e.1, f e.2) :: (l₁ ++ x :: l₂)
        rw [updateById_cons, if_pos he]
      · intro q hq
        rcases List.mem_cons.mp hq with rfl | hmem
        · exact Or.inr ⟨e, List.mem_cons_self _ _, rfl⟩
        · exact Or.inl (List.mem_cons_of_mem _ hmem)
      · rfl
    · obtain ⟨l₁', l₂', heq, h₁, h₂, hkeys⟩ := ih l₂
      refine ⟨e :: l₁', l₂', ?_, ?_, h₂, ?_⟩
      · show updateById n f (e :: (l₁ ++ x :: l₂)) = e :: (l₁' ++ x :: l₂')
        rw [updateById_cons, if_neg he, heq]
      · intro q hq
        rcases List.mem_cons.mp hq with rfl | hmem
        · exact Or.inl (List.mem_cons_self _ _)
        · rcases h₁ q hmem with h | ⟨y, hy, hqy⟩
          · exact Or.inl (List.mem_cons_of_mem _ h)
          · exact Or.inr ⟨y, List.mem_cons_of_mem _ hy, hqy⟩
      · show e.1 :: l₁'.map Prod.fst = e.1 :: l₁.map Prod.fst
        rw [hkeys]

theorem updateById_idem (n : Nat) (f : JobPart → JobPart)
    (hf : ∀ p, f (f p) = f p) :
    ∀ (l : List (Nat × JobPart)),
      updateById n f (updateById n f l) = updateById n f l := by
  intro l
  induction l with
  | nil => rfl
  | cons e l ih =>
    rw [updateById_cons]
    by_cases he : e.1 = n
    · rw [if_pos he, updateById_cons, if_pos he]
      show ((e.1, f (f e.2)) : Nat × JobPart) :: l = (e.1, f e.2) :: l
      rw [hf]
    · rw [if_neg he, updateById_cons, if_neg he, ih]

theorem updateFirst_idem (matcher : JobPart → Bool) (f : JobPart → JobPart)
    (hm : ∀ p, matcher (f p) = matcher p) (hf : ∀ p, f (f p) = f p) :
    ∀ (l : List JobPart),
      updateFirst matcher f (updateFirst matcher f l) = updateFirst matcher f l := by
  intro l
  induction l with
  | nil => rfl
  | cons p l ih =>
    rw [updateFirst_cons]
    by_cases hp : matcher p = true
    · rw [if_pos hp, updateFirst_cons, if_pos (by rw [hm]; exact hp), hf]
    · rw [if_neg hp, updateFirst_cons, if_neg hp, ih]

theorem any_updateFirst (matcher : JobPart → Bool) (f : JobPart → JobPart)
    (hm : ∀ p, matcher (f p) = matcher p) :
    ∀ (l : List JobPart), (updateFirst matcher f l).any matcher = l.any matcher := by
  intro l
  induction l with
  | nil => rfl
  | cons p l ih =>
    rw [updateFirst_cons]
    by_cases hp : matcher p = true
    · rw [if_pos hp, List.any_cons, List.any_cons, hm]
    · rw [if_neg hp, List.any_cons, List.any_cons, ih]

/-- Well-formedness of the loop state: allocated ids are below the counter,
and the reference cells (`currentTextPart`, `reasoningPart`, the `toolCalls`
map) point at parts of the matching kind. -/
structure OrchInv (s : OrchState) : Prop where
  fresh : ∀ e ∈ s.order, e.1 < s.nextId
  ctext : ∀ id, s.currentText = some id → id < s.nextId ∧
    ∀ p, lookupId s.order id = some p → p.type = "text"
  creason : ∀ id, s.reasoningId = some id → id < s.nextId ∧
    ∀ p, lookupId s.order id = some p → p.type = "reasoning"
  ctool : ∀ k id, assocGet s.toolCalls k = some id → id < s.nextId ∧
    ∀ p, lookupId s.order id = some p →
      p.type = "dynamic-tool" ∧ p.toolCallId = some k

theorem fresh_append (l : List (Nat × JobPart)) (n : Nat) (q : JobPart)
    (h : ∀ e ∈ l, e.1 < n) : ∀ e ∈ l ++ [(n, q)], e.1 < n + 1 := by
  intro e he
  rcases List.mem_append.mp he with h1 | h1
  · have := h e h1
    omega
  · rw [List.mem_singleton] at h1
    rw [h1]
    show n < n + 1
    omega

theorem fresh_updateById (l : List (Nat × JobPart)) (n m : Nat)
    (f : JobPart → JobPart) (h : ∀ e ∈ l, e.1 < n) :
    ∀ e ∈ updateById m f l, e.1 < n := by
  intro e he
  rcases mem_updateById m f l e he with h1 | ⟨y, hy, rfl⟩
  · exact h e h1
  · exact h y hy

theorem lookupId_append_of_lt (l : List (Nat × JobPart)) (n : Nat) (q : JobPart)
    (id : Nat) (hid : id ≠ n) :
    lookupId (l ++ [(n, q)]) id = lookupId l id := by
  rw [lookupId_append_single]
  cases hl : lookupId l id with
  | some p => rfl
  | none =>
    dsimp only
    rw [if_neg (fun hh => hid hh.symm)]

theorem lookupId_append_self (l : List (Nat × JobPart)) (n : Nat) (q : JobPart)
    (hfresh : ∀ e ∈ l, e.1 < n) :
    lookupId (l ++ [(n, q)]) n = some q := by
  rw [lookupId_append_single, lookupId_none_of_fresh n l hfresh]
  dsimp only
  rw [if_pos rfl]

/-- Invariant preservation for in-place part updates (the `order`/`job`
mutations of the text-delta, reasoning and tool-result cases). -/
theorem orchInv_update (s : OrchState) (m : Nat) (f : JobPart → JobPart)
    (hf : ∀ p, (f p).type = p.type) (hfc : ∀ p, (f p).toolCallId = p.toolCallId)
    (h : OrchInv s) (j' : Option ChatJob) :
    OrchInv { s with order := updateById m f s.order, job := j' } := by
  refine ⟨?_, ?_, ?_, ?_⟩
  · exact fresh_updateById s.order s.nextId m f h.fresh
  · intro id hct
    obtain ⟨hlt, hty⟩ := h.ctext id hct
    refine ⟨hlt, ?_⟩
    intro p hp
    rw [lookupId_updateById] at hp
    by_cases hcase : id = m
    · rw [if_pos hcase] at hp
      cases hl : lookupId s.order id with
      | none => rw [hl] at hp; exact absurd hp (by simp)
      | some p₀ =>
        rw [hl] at hp
        simp only [Option.map_some', Option.some.injEq] at hp
        rw [← hp, hf]
        exact hty p₀ hl
    · rw [if_neg hcase] at hp
      exact hty p hp
  · intro id hct
    obtain ⟨hlt, hty⟩ := h.creason id hct
    refine ⟨hlt, ?_⟩
    intro p hp
    rw [lookupId_updateById] at hp
    by_cases hcase : id = m
    · rw [if_pos hcase] at hp
      cases hl : lookupId s.order id with
      | none => rw [hl] at hp; exact absurd hp (by simp)
      | some p₀ =>
        rw [hl] at hp
        simp only [Option.map_some', Option.some.injEq] at hp
        rw [← hp, hf]
        exact hty p₀ hl
    · rw [if_neg hcase] at hp
      exact hty p hp
  · intro k id htc
    obtain ⟨hlt, hrest⟩ := h.ctool k id htc
    refine ⟨hlt, ?_⟩
    intro p hp
    rw [lookupId_updateById] at hp
    by_cases hcase : id = m
    · rw [if_pos hcase] at hp
      cases hl : lookupId s.order id with
      | none => rw [hl] at hp; exact absurd hp (by simp)
      | some p₀ =>
        rw [hl] at hp
        simp only [Option.map_some', Option.some.injEq] at hp
        obtain ⟨hty, hcid⟩ := hrest p₀ hl
        rw [← hp]
        exact ⟨by rw [hf]; exact hty, by rw [hfc]; exact hcid⟩
    · rw [if_neg hcase] at hp
      exact hrest p hp

/-- Invariant preservation for plain part pushes (source, step-start). -/
theorem orchInv_push (s : OrchState) (q : JobPart) (h : OrchInv s)
    (j' : Option ChatJob) :
    OrchInv { s with order := s.order ++ [(s.nextId, q)], nextId := s.nextId + 1,
                     job := j' } := by
  refine ⟨fresh_append s.order s.nextId q h.fresh, ?_, ?_, ?_⟩
  · intro id hct
    obtain ⟨hlt, hty⟩ := h.ctext id hct
    refine ⟨show id < s.nextId + 1 by omega, ?_⟩
    intro p hp
    have hp' : lookupId (s.order ++ [(s.nextId, q)]) id = some p := hp
    rw [lookupId_append_of_lt s.order s.nextId q id (by omega)] at hp'
    exact hty p hp'
  · intro id hct
    obtain ⟨hlt, hty⟩ := h.creason id hct
    refine ⟨show id < s.nextId + 1 by omega, ?_⟩
    intro p hp
    have hp' : lookupId (s.order ++ [(s.nextId, q)]) id = some p := hp
    rw [lookupId_append_of_lt s.order s.nextId q id (by omega)] at hp'
    exact hty p hp'
  · intro k id htc
    obtain ⟨hlt, hrest⟩ := h.ctool k id htc
    refine ⟨show id < s.nextId + 1 by omega, ?_⟩
    intro p hp
    have hp' : lookupId (s.order ++ [(s.nextId, q)]) id = some p := hp
    rw [lookupId_append_of_lt s.order s.nextId q id (by omega)] at hp'
    exact hrest p hp'

/-- Invariant preservation for opening a new text part (text-delta with no
current text part). -/
theorem orchInv_push_text (s : OrchState) (q : JobPart) (hq : q.type = "text")
    (h : OrchInv s) (j' : Option ChatJob) :
    OrchInv { s with order := s.order ++ [(s.nextId, q)], nextId := s.nextId + 1,
                     currentText := some s.nextId, job := j' } := by
  refine ⟨fresh_append s.order s.nextId q h.fresh, ?_, ?_, ?_⟩
  · intro id hct
    have hid : id = s.nextId := by
      injection hct with hct
      exact hct.symm
    subst hid
    refine ⟨show s.nextId < s.nextId + 1 by omega, ?_⟩
    intro p hp
    have hp' : lookupId (s.order ++ [(s.nextId, q)]) s.nextId = some p := hp
    rw [lookupId_append_self s.order s.nextId q h.fresh] at hp'
    injection hp' with hp'
    rw [← hp']
    exact hq
  · intro id hct
    obtain ⟨hlt, hty⟩ := h.creason id hct
    refine ⟨show id < s.nextId + 1 by omega, ?_⟩
    intro p hp
    have hp' : lookupId (s.order ++ [(s.nextId, q)]) id = some p := hp
    rw [lookupId_append_of_lt s.order s.nextId q id (by omega)] at hp'
    exact hty p hp'
  · intro k id htc
    obtain ⟨hlt, hrest⟩ := h.ctool k id htc
    refine ⟨show id < s.nextId + 1 by omega, ?_⟩
    intro p hp
    have hp' : lookupId (s.order ++ [(s.nextId, q)]) id = some p := hp
    rw [lookupId_append_of_lt s.order s.nextId q id (by omega)] at hp'
    exact hrest p hp'

/-- Invariant preservation for opening a tool call. -/
theorem orchInv_toolCall (s : OrchState) (tcid name : String) (a i : Option String)
    (h : OrchInv s) (j' : Option ChatJob) :
    OrchInv { s with currentText := none,
                     order := s.order ++ [(s.nextId, newToolPart tcid name a i)],
                     nextId := s.nextId + 1,
                     toolCalls := assocSet tcid s.nextId s.toolCalls,
                     job := j' } := by
  refine ⟨fresh_append s.order s.nextId _ h.fresh, ?_, ?_, ?_⟩
  · intro id hct
    exact absurd hct (by simp)
  · intro id hct
    obtain ⟨hlt, hty⟩ := h.creason id hct
    refine ⟨show id < s.nextId + 1 by omega, ?_⟩
    intro p hp
    have hp' : lookupId (s.order ++ [(s.nextId, newToolPart tcid name a i)]) id =
        some p := hp
    rw [lookupId_append_of_lt s.order s.nextId _ id (by omega)] at hp'
    exact hty p hp'
  · intro k id htc
    have htc' : assocGet (assocSet tcid s.nextId s.toolCalls) k = some id := htc
    rw [assocGet_assocSet] at htc'
    by_cases hk : k = tcid
    · rw [if_pos hk] at htc'
      have hid : id = s.nextId := by
        injection htc' with htc'
        exact htc'.symm
      subst hid
      refine ⟨show s.nextId < s.nextId + 1 by omega, ?_⟩
      intro p hp
      have hp' : lookupId (s.order ++ [(s.nextId, newToolPart tcid name a i)])
          s.nextId = some p := hp
      rw [lookupId_append_self s.order s.nextId _ h.fresh] at hp'
      injection hp' with hp'
      rw [← hp', hk]
      exact ⟨rfl, rfl⟩
    · rw [if_neg hk] at htc'
      obtain ⟨hlt, hrest⟩ := h.ctool k id htc'
      refine ⟨show id < s.nextId + 1 by omega, ?_⟩
      intro p hp
      have hp' : lookupId (s.order ++ [(s.nextId, newToolPart tcid name a i)]) id =
          some p := hp
      rw [lookupId_append_of_lt s.order s.nextId _ id (by omega)] at hp'
      exact hrest p hp'

/-- Invariant preservation for opening the reasoning part (unshift). -/
theorem orchInv_unshift_reasoning (s : OrchState) (q : JobPart)
    (hq : q.type = "reasoning") (h : OrchInv s) (j' : Option ChatJob) :
    OrchInv { s with order := (s.nextId, q) :: s.order, nextId := s.nextId + 1,
                     reasoningId := some s.nextId, job := j' } := by
  refine ⟨?_, ?_, ?_, ?_⟩
  · intro e he
    rcases List.mem_cons.mp he with rfl | hmem
    · show s.nextId < s.nextId + 1
      omega
    · have := h.fresh e hmem
      show e.1 < s.nextId + 1
      omega
  · intro id hct
    obtain ⟨hlt, hty⟩ := h.ctext id hct
    refine ⟨show id < s.nextId + 1 by omega, ?_⟩
    intro p hp
    have hp' : lookupId ((s.nextId, q) :: s.order) id = some p := hp
    rw [lookupId_cons, if_neg (show ¬ (s.nextId, q).1 = id by show ¬ s.nextId = id; omega)] at hp'
    exact hty p hp'
  · intro id hct
    have hid : id = s.nextId := by
      injection hct with hct
      exact hct.symm
    subst hid
    refine ⟨show s.nextId < s.nextId + 1 by omega, ?_⟩
    intro p hp
    have hp' : lookupId ((s.nextId, q) :: s.order) s.nextId = some p := hp
    rw [lookupId_cons, if_pos rfl] at hp'
    injection hp' with hp'
    rw [← hp']
    exact hq
  · intro k id htc
    obtain ⟨hlt, hrest⟩ := h.ctool k id htc
    refine ⟨show id < s.nextId + 1 by omega, ?_⟩
    intro p hp
    have hp' : lookupId ((s.nextId, q) :: s.order) id = some p := hp
    rw [lookupId_cons, if_neg (show ¬ (s.nextId, q).1 = id by show ¬ s.nextId = id; omega)] at hp'
    exact hrest p hp'

theorem orchInv_step (e : StreamEvent) (s : OrchState) (h : OrchInv s) :
    OrchInv (stepEvent e s) := by
  obtain ⟨j, ord, nid, ct, rid0, tc, fr⟩ := s
  cases e with
  | textDelta td tf =>
    simp only [stepEvent]
    cases td.orElse fun _ => tf with
    | none => exact h
    | some content =>
      cases ct with
      | some cid =>
        exact orchInv_update ⟨j, ord, nid, some cid, rid0, tc, fr⟩ cid
          (fun p => { p with text := some (p.text.getD "" ++ content) })
          (fun p => rfl) (fun p => rfl) h _
      | none =>
        exact orchInv_push_text ⟨j, ord, nid, none, rid0, tc, fr⟩
          { type := "text", text := some content } rfl h _
  | reasoningDelta td tf =>
    simp only [stepEvent]
    cases td.orElse fun _ => tf with
    | none => exact h
    | some content =>
      cases rid0 with
      | some rid =>
        exact orchInv_update ⟨j, ord, nid, ct, some rid, tc, fr⟩ rid
          (fun p =>
            { p with
              text := some (((lookupId ord rid).bind JobPart.text).getD "" ++ content) })
          (fun p => rfl) (fun p => rfl) h _
      | none =>
        exact orchInv_unshift_reasoning ⟨j, ord, nid, ct, none, tc, fr⟩
          { type := "reasoning", text := some content } rfl h _
  | toolCall tcid name args input =>
    exact orchInv_toolCall ⟨j, ord, nid, ct, rid0, tc, fr⟩ tcid name args input h _
  | toolResult tcid result output =>
    simp only [stepEvent]
    cases htid : assocGet tc tcid with
    | none => exact h
    | some tid =>
      exact orchInv_update ⟨j, ord, nid, ct, rid0, tc, fr⟩ tid
        (resolveToolFields (result.orElse fun _ => output))
        (fun p => rfl) (fun p => rfl) h _
  | sourceEvt url =>
    exact orchInv_push ⟨j, ord, nid, ct, rid0, tc, fr⟩
      { type := "source-url", url := some url } h _
  | finishEvt r =>
    exact ⟨h.fresh, h.ctext, h.creason, h.ctool⟩
  | stepStart =>
    exact orchInv_push ⟨j, ord, nid, ct, rid0, tc, fr⟩ { type := "step-start" } h _
  | stepFinish => exact h
  | textStart => exact h
  | textEnd => exact h
  | errorEvt m => exact h
  | unknown t => exact h

theorem orchInv_init (jid cid : String) : OrchInv (initOrch jid cid) := by
  refine ⟨?_, ?_, ?_, ?_⟩
  · intro e he
    exact absurd he (List.not_mem_nil e)
  · intro id hct
    exact absurd hct (by simp [initOrch])
  · intro id hct
    exact absurd hct (by simp [initOrch])
  · intro k id htc
    exact absurd htc (by simp [initOrch, assocGet])

theorem orchInv_foldl (l : List StreamEvent) :
    ∀ (s : OrchState), OrchInv s → OrchInv (l.foldl (fun s e => stepEvent e s) s) := by
  induction l with
  | nil => intro s h; exact h
  | cons e l ih =>
    intro s h
    rw [List.foldl_cons]
    exact ih _ (orchInv_step e s h)

/-! ## Tool-call lifecycle (C6)

A `tool-call` event pushes one `dynamic-tool` part and registers it in the
`toolCalls` map; every later `tool-result` for the same id mutates that same
part object in place (`Object.assign` through the map reference), so the
ordered part list never gains a second part for the id. -/

/-- `true` iff the event is the `tool-call` case for call id `c`. -/
def isToolCallFor (c : String) : StreamEvent → Bool
  | .toolCall tcid _ _ _ => tcid == c
  | _ => false

/-- `true` iff the event is the `tool-result` case for call id `c`. -/
def isToolResultFor (c : String) : StreamEvent → Bool
  | .toolResult tcid _ _ => tcid == c
  | _ => false

/-- Accumulates the payload (`result ?? output`) of the most recent
`tool-result` for `c`. -/
def nextRes (c : String) (acc : Option (Option String)) :
    StreamEvent → Option (Option String)
  | .toolResult tcid r o => if tcid = c then some (r.orElse fun _ => o) else acc
  | _ => acc

/-- The payload left by the last `tool-result` for `c` in the event list,
if any. -/
def lastResultFor (c : String) (events : List StreamEvent) :
    Option (Option String) :=
  events.foldl (nextRes c) none

/-- The tool part for call `c` as a function of the results delivered so far:
fresh (`input-available`) while no result arrived, resolved
(`output-available`, payload attached) afterwards. -/
def theToolState (c n : String) (a i : Option String) :
    Option (Option String) → JobPart
  | none => newToolPart c n a i
  | some ro => resolveToolFields ro (newToolPart c n a i)

/-- No part and no `toolCalls` entry for call id `c` yet. -/
def noCallFor (c : String) (s : OrchState) : Prop :=
  assocGet s.toolCalls c = none ∧ ∀ e ∈ s.order, e.2.toolCallId ≠ some c

/-- Exactly one part for call id `c` in the ordered list, tracked by the
`toolCalls` map, in the state determined by the results seen so far. -/
def trackedCall (c n : String) (a i : Option String)
    (res : Option (Option String)) (s : OrchState) : Prop :=
  ∃ tid l₁ l₂,
    s.order = l₁ ++ (tid, theToolState c n a i res) :: l₂ ∧
    (∀ e ∈ l₁, e.1 ≠ tid ∧ e.2.toolCallId ≠ some c) ∧
    (∀ e ∈ l₂, e.2.toolCallId ≠ some c) ∧
    assocGet s.toolCalls c = some tid

theorem theToolState_type (c n : String) (a i : Option String)
    (res : Option (Option String)) :
    (theToolState c n a i res).type = "dynamic-tool" := by
  cases res <;> rfl

theorem theToolState_toolCallId (c n : String) (a i : Option String)
    (res : Option (Option String)) :
    (theToolState c n a i res).toolCallId = some c := by
  cases res <;> rfl

/-- A later resolve overwrites the payload of the tracked part. -/
theorem resolveToolFields_theToolState (c n : String) (a i : Option String)
    (ro : Option String) (res : Option (Option String)) :
    resolveToolFields ro (theToolState c n a i res) =
      theToolState c n a i (some ro) := by
  cases res <;> rfl

theorem middle_append (l₁ l₂ : List (Nat × JobPart)) (x y : Nat × JobPart) :
    (l₁ ++ x :: l₂) ++ [y] = l₁ ++ x :: (l₂ ++ [y]) := by
  rw [List.append_assoc, List.cons_append]

theorem noCall_updateById (c : String) (m : Nat) (f : JobPart → JobPart)
    (hfc : ∀ p, (f p).toolCallId = p.toolCallId) (l : List (Nat × JobPart))
    (h : ∀ e ∈ l, e.2.toolCallId ≠ some c) :
    ∀ e ∈ updateById m f l, e.2.toolCallId ≠ some c := by
  intro e he
  rcases mem_updateById m f l e he with hmem | ⟨y, hy, rfl⟩
  · exact h e hmem
  · show (f y.2).toolCallId ≠ some c
    rw [hfc]
    exact h y hy

theorem noCall_append (c : String) (l : List (Nat × JobPart)) (x : Nat × JobPart)
    (h : ∀ e ∈ l, e.2.toolCallId ≠ some c) (hx : x.2.toolCallId ≠ some c) :
    ∀ e ∈ l ++ [x], e.2.toolCallId ≠ some c := by
  intro e he
  rcases List.mem_append.mp he with hmem | hmem
  · exact h e hmem
  · obtain rfl := List.mem_singleton.mp hmem
    exact hx

/-- A step whose event is not a `tool-call` for `c` keeps `c` untracked. -/
theorem noCallFor_step (c : String) (e : StreamEvent) (s : OrchState)
    (hnc : isToolCallFor c e = false) (h : noCallFor c s) :
    noCallFor c (stepEvent e s) := by
  obtain ⟨j, ord, nid, ct, rid0, tc, fr⟩ := s
  obtain ⟨hget, hparts⟩ := h
  cases e with
  | textDelta td tf =>
    simp only [stepEvent]
    cases td.orElse fun _ => tf with
    | none => exact ⟨hget, hparts⟩
    | some content =>
      cases ct with
      | some cid =>
        exact ⟨hget, noCall_updateById c cid
          (fun p => { p with text := some (p.text.getD "" ++ content) })
          (fun p => rfl) ord hparts⟩
      | none =>
        refine ⟨hget, noCall_append c ord
          (nid, { type := "text", text := some content }) hparts ?_⟩
        exact fun hh => Option.noConfusion hh
  | reasoningDelta td tf =>
    simp only [stepEvent]
    cases td.orElse fun _ => tf with
    | none => exact ⟨hget, hparts⟩
    | some content =>
      cases rid0 with
      | some rid =>
        exact ⟨hget, noCall_updateById c rid
          (fun p =>
            { p with
              text := some (((lookupId ord rid).bind JobPart.text).getD "" ++ content) })
          (fun p => rfl) ord hparts⟩
      | none =>
        refine ⟨hget, ?_⟩
        intro e' he'
        rcases List.mem_cons.mp he' with rfl | hmem
        · exact fun hh => Option.noConfusion hh
        · exact hparts e' hmem
  | toolCall tcid name args input =>
    have hbe : (tcid == c) = false := hnc
    have hne : tcid ≠ c := by
      intro hh
      rw [hh] at hbe
      simp at hbe
    simp only [stepEvent]
    refine ⟨?_, noCall_append c ord (nid, newToolPart tcid name args input)
      hparts ?_⟩
    · show assocGet (assocSet tcid nid tc) c = none
      rw [assocGet_assocSet, if_neg (fun hh => hne hh.symm)]
      exact hget
    · show (newToolPart tcid name args input).toolCallId ≠ some c
      intro hh
      have hh' : (some tcid : Option String) = some c := hh
      exact hne (Option.some.inj hh')
  | toolResult tcid r o =>
    simp only [stepEvent]
    cases htc' : assocGet tc tcid with
    | none => exact ⟨hget, hparts⟩
    | some tid' =>
      exact ⟨hget, noCall_updateById c tid'
        (resolveToolFields (r.orElse fun _ => o)) (fun p => rfl) ord hparts⟩
  | sourceEvt url =>
    simp only [stepEvent]
    refine ⟨hget, noCall_append c ord (nid, { type := "source-url", url := some url })
      hparts ?_⟩
    exact fun hh => Option.noConfusion hh
  | finishEvt r => exact ⟨hget, hparts⟩
  | stepStart =>
    simp only [stepEvent]
    refine ⟨hget, noCall_append c ord (nid, { type := "step-start" }) hparts ?_⟩
    exact fun hh => Option.noConfusion hh
  | stepFinish => exact ⟨hget, hparts⟩
  | textStart => exact ⟨hget, hparts⟩
  | textEnd => exact ⟨hget, hparts⟩
  | errorEvt m => exact ⟨hget, hparts⟩
  | unknown t => exact ⟨hget, hparts⟩

theorem noCallFor_foldl (c : String) :
    ∀ (l : List StreamEvent), (∀ e ∈ l, isToolCallFor c e = false) →
      ∀ s, noCallFor c s →
        noCallFor c (l.foldl (fun s e => stepEvent e s) s) := by
  intro l
  induction l with
  | nil => intro _ s h; exact h
  | cons e l ih =>
    intro hl s h
    rw [List.foldl_cons]
    exact ih (fun e' he' => hl e' (List.mem_cons_of_mem _ he')) _
      (noCallFor_step c e s (hl e (List.mem_cons_self _ _)) h)

theorem noCallFor_init (c jid cid : String) : noCallFor c (initOrch jid cid) :=
  ⟨rfl, fun e he => absurd he (List.not_mem_nil e)⟩

/-- Mutating a part other than the tracked one preserves the tracked
decomposition. -/
theorem trackedCall_updateById (c n : String) (a i : Option String)
    (res : Option (Option String)) (m : Nat) (f : JobPart → JobPart)
    (hfc : ∀ p, (f p).toolCallId = p.toolCallId)
    (tid : Nat) (l₁ l₂ : List (Nat × JobPart)) (hm : m ≠ tid)
    (h₁ : ∀ e ∈ l₁, e.1 ≠ tid ∧ e.2.toolCallId ≠ some c)
    (h₂ : ∀ e ∈ l₂, e.2.toolCallId ≠ some c) :
    ∃ l₁' l₂',
      updateById m f (l₁ ++ (tid, theToolState c n a i res) :: l₂) =
        l₁' ++ (tid, theToolState c n a i res) :: l₂' ∧
      (∀ e ∈ l₁', e.1 ≠ tid ∧ e.2.toolCallId ≠ some c) ∧
      (∀ e ∈ l₂', e.2.toolCallId ≠ some c) := by
  obtain ⟨l₁', l₂', heq, hh₁, hh₂, _⟩ :=
    updateById_decomp m f (tid, theToolState c n a i res)
      (fun hh => hm hh.symm) l₁ l₂
  refine ⟨l₁', l₂', heq, ?_, ?_⟩
  · intro e he
    rcases hh₁ e he with hmem | ⟨y, hy, rfl⟩
    · exact h₁ e hmem
    · refine ⟨(h₁ y hy).1, ?_⟩
      show (f y.2).toolCallId ≠ some c
      rw [hfc]
      exact (h₁ y hy).2
  · intro e he
    rcases hh₂ e he with hmem | ⟨y, hy, rfl⟩
    · exact h₂ e hmem
    · show (f y.2).toolCallId ≠ some c
      rw [hfc]
      exact h₂ y hy

/-- Once tracked, every later event (no re-issued `tool-call` for `c`) keeps
exactly one part for `c`; a `tool-result` for `c` mutates it in place. -/
theorem trackedCall_step (c n : String) (a i : Option String)
    (res : Option (Option String)) (e : StreamEvent) (s : OrchState)
    (hinv : OrchInv s) (hnc : isToolCallFor c e = false)
    (h : trackedCall c n a i res s) :
    trackedCall c n a i (nextRes c res e) (stepEvent e s) := by
  obtain ⟨j, ord, nid, ct, rid0, tc, fr⟩ := s
  obtain ⟨tid, l₁, l₂, heq0, h₁, h₂, htc0⟩ := h
  have heq : ord = l₁ ++ (tid, theToolState c n a i res) :: l₂ := heq0
  have htc : assocGet tc c = some tid := htc0
  clear heq0 htc0
  have hPty := theToolState_type c n a i res
  have hPid := theToolState_toolCallId c n a i res
  have htid_lookup : lookupId ord tid = some (theToolState c n a i res) := by
    rw [heq]
    exact lookupId_middle tid _ l₁ l₂ (fun e' he' => (h₁ e' he').1)
  cases e with
  | textDelta td tf =>
    simp only [stepEvent, nextRes]
    cases td.orElse fun _ => tf with
    | none => exact ⟨tid, l₁, l₂, heq, h₁, h₂, htc⟩
    | some content =>
      cases ct with
      | some cid =>
        have hcid : cid ≠ tid := by
          intro hh
          have h1 := (hinv.ctext cid rfl).2 (theToolState c n a i res)
            (by rw [hh]; exact htid_lookup)
          rw [hPty] at h1
          exact absurd h1 (by decide)
        obtain ⟨l₁', l₂', heq', h₁', h₂'⟩ :=
          trackedCall_updateById c n a i res cid
            (fun p => { p with text := some (p.text.getD "" ++ content) })
            (fun p => rfl) tid l₁ l₂ hcid h₁ h₂
        refine ⟨tid, l₁', l₂', ?_, h₁', h₂', htc⟩
        show updateById cid
          (fun p => { p with text := some (p.text.getD "" ++ content) }) ord = _
        rw [heq]
        exact heq'
      | none =>
        refine ⟨tid, l₁, l₂ ++ [(nid, { type := "text", text := some content })],
          ?_, h₁, ?_, htc⟩
        · show ord ++ [(nid, { type := "text", text := some content })] = _
          rw [heq, middle_append]
        · intro e' he'
          rcases List.mem_append.mp he' with hmem | hmem
          · exact h₂ e' hmem
          · obtain rfl := List.mem_singleton.mp hmem
            exact fun hh => Option.noConfusion hh
  | reasoningDelta td tf =>
    simp only [stepEvent, nextRes]
    cases td.orElse fun _ => tf with
    | none => exact ⟨tid, l₁, l₂, heq, h₁, h₂, htc⟩
    | some content =>
      cases rid0 with
      | some rid =>
        have hrid : rid ≠ tid := by
          intro hh
          have h1 := (hinv.creason rid rfl).2 (theToolState c n a i res)
            (by rw [hh]; exact htid_lookup)
          rw [hPty] at h1
          exact absurd h1 (by decide)
        obtain ⟨l₁', l₂', heq', h₁', h₂'⟩ :=
          trackedCall_updateById c n a i res rid
            (fun p =>
              { p with
                text := some (((lookupId ord rid).bind JobPart.text).getD "" ++ content) })
            (fun p => rfl) tid l₁ l₂ hrid h₁ h₂
        refine ⟨tid, l₁', l₂', ?_, h₁', h₂', htc⟩
        show updateById rid
          (fun p =>
            { p with
              text := some (((lookupId ord rid).bind JobPart.text).getD "" ++ content) })
          ord = l₁' ++ (tid, theToolState c n a i res) :: l₂'
        nth_rewrite 2 [heq]
        exact heq'
      | none =>
        have htid_mem : ((tid, theToolState c n a i res) : Nat × JobPart) ∈ ord := by
          rw [heq]
          exact List.mem_append_right _ (List.mem_cons_self _ _)
        have hlt : tid < nid := hinv.fresh _ htid_mem
        refine ⟨tid, (nid, { type := "reasoning", text := some content }) :: l₁, l₂,
          ?_, ?_, h₂, htc⟩
        · show (nid, { type := "reasoning", text := some content }) :: ord = _
          rw [heq]
          rfl
        · intro e' he'
          rcases List.mem_cons.mp he' with rfl | hmem
          · refine ⟨?_, fun hh => Option.noConfusion hh⟩
            show nid ≠ tid
            omega
          · exact h₁ e' hmem
  | toolCall tcid name args input =>
    have hbe : (tcid == c) = false := hnc
    have hne : tcid ≠ c := by
      intro hh
      rw [hh] at hbe
      simp at hbe
    simp only [stepEvent, nextRes]
    refine ⟨tid, l₁, l₂ ++ [(nid, newToolPart tcid name args input)], ?_, h₁, ?_, ?_⟩
    · show ord ++ [(nid, newToolPart tcid name args input)] = _
      rw [heq, middle_append]
    · intro e' he'
      rcases List.mem_append.mp he' with hmem | hmem
      · exact h₂ e' hmem
      · obtain rfl := List.mem_singleton.mp hmem
        show (newToolPart tcid name args input).toolCallId ≠ some c
        intro hh
        have hh' : (some tcid : Option String) = some c := hh
        exact hne (Option.some.inj hh')
    · show assocGet (assocSet tcid nid tc) c = some tid
      rw [assocGet_assocSet, if_neg (fun hh => hne hh.symm)]
      exact htc
  | toolResult tcid r o =>
    simp only [stepEvent, nextRes]
    by_cases hc : tcid = c
    · rw [hc, if_pos rfl, htc]
      refine ⟨tid, l₁, l₂, ?_, h₁, h₂, htc⟩
      show updateById tid (resolveToolFields (r.orElse fun _ => o)) ord =
        l₁ ++ (tid, theToolState c n a i (some (r.orElse fun _ => o))) :: l₂
      rw [heq, updateById_hit tid (resolveToolFields (r.orElse fun _ => o))
        (theToolState c n a i res) l₁ l₂ (fun e' he' => (h₁ e' he').1),
        resolveToolFields_theToolState]
    · rw [if_neg hc]
      cases htc' : assocGet tc tcid with
      | none => exact ⟨tid, l₁, l₂, heq, h₁, h₂, htc⟩
      | some tid' =>
        have htid' : tid' ≠ tid := by
          intro hh
          obtain ⟨_, h2⟩ := (hinv.ctool tcid tid' htc').2 (theToolState c n a i res)
            (by rw [hh]; exact htid_lookup)
          rw [hPid] at h2
          exact hc (Option.some.inj h2).symm
        obtain ⟨l₁', l₂', heq', h₁', h₂'⟩ :=
          trackedCall_updateById c n a i res tid'
            (resolveToolFields (r.orElse fun _ => o)) (fun p => rfl)
            tid l₁ l₂ htid' h₁ h₂
        refine ⟨tid, l₁', l₂', ?_, h₁', h₂', htc⟩
        show updateById tid' (resolveToolFields (r.orElse fun _ => o)) ord = _
        rw [heq]
        exact heq'
  | sourceEvt url =>
    simp only [stepEvent, nextRes]
    refine ⟨tid, l₁, l₂ ++ [(nid, { type := "source-url", url := some url })],
      ?_, h₁, ?_, htc⟩
    · show ord ++ [(nid, { type := "source-url", url := some url })] = _
      rw [heq, middle_append]
    · intro e' he'
      rcases List.mem_append.mp he' with hmem | hmem
      · exact h₂ e' hmem
      · obtain rfl := List.mem_singleton.mp hmem
        exact fun hh => Option.noConfusion hh
  | finishEvt r => exact ⟨tid, l₁, l₂, heq, h₁, h₂, htc⟩
  | stepStart =>
    simp only [stepEvent, nextRes]
    refine ⟨tid, l₁, l₂ ++ [(nid, { type := "step-start" })], ?_, h₁, ?_, htc⟩
    · show ord ++ [(nid, { type := "step-start" })] = _
      rw [heq, middle_append]
    · intro e' he'
      rcases List.mem_append.mp he' with hmem | hmem
      · exact h₂ e' hmem
      · obtain rfl := List.mem_singleton.mp hmem
        exact fun hh => Option.noConfusion hh
  | stepFinish => exact ⟨tid, l₁, l₂, heq, h₁, h₂, htc⟩
  | textStart => exact ⟨tid, l₁, l₂, heq, h₁, h₂, htc⟩
  | textEnd => exact ⟨tid, l₁, l₂, heq, h₁, h₂, htc⟩
  | errorEvt m => exact ⟨tid, l₁, l₂, heq, h₁, h₂, htc⟩
  | unknown t => exact ⟨tid, l₁, l₂, heq, h₁, h₂, htc⟩

theorem trackedCall_foldl (c n : String) (a i : Option String) :
    ∀ (l : List StreamEvent), (∀ e ∈ l, isToolCallFor c e = false) →
      ∀ (s : OrchState) (res : Option (Option String)), OrchInv s →
        trackedCall c n a i res s →
        trackedCall c n a i (l.foldl (nextRes c) res)
          (l.foldl (fun s e => stepEvent e s) s) := by
  intro l
  induction l with
  | nil => intro _ s res _ h; exact h
  | cons e l ih =>
    intro hl s res hinv h
    rw [List.foldl_cons, List.foldl_cons]
    exact ih (fun e' he' => hl e' (List.mem_cons_of_mem _ he')) _ _
      (orchInv_step e s hinv)
      (trackedCall_step c n a i res e s hinv (hl e (List.mem_cons_self _ _)) h)

/-- The `tool-call` for `c` itself starts the tracked decomposition. -/
theorem trackedCall_start (c n : String) (a i : Option String) (s : OrchState)
    (hinv : OrchInv s) (h : noCallFor c s) :
    trackedCall c n a i none (stepEvent (.toolCall c n a i) s) := by
  obtain ⟨j, ord, nid, ct, rid0, tc, fr⟩ := s
  obtain ⟨hget, hparts⟩ := h
  refine ⟨nid, ord, [], ?_, ?_, ?_, ?_⟩
  · show ord ++ [(nid, newToolPart c n a i)] =
      ord ++ (nid, theToolState c n a i none) :: []
    rfl
  · intro e' he'
    refine ⟨?_, hparts e' he'⟩
    have hlt : e'.1 < nid := hinv.fresh e' he'
    show e'.1 ≠ nid
    omega
  · intro e' he'
    exact absurd he' (List.not_mem_nil e')
  · show assocGet (assocSet c nid tc) c = some nid
    rw [assocGet_assocSet, if_pos rfl]

theorem nextRes_isSome (c : String) (acc : Option (Option String))
    (e : StreamEvent) (h : acc.isSome = true) : (nextRes c acc e).isSome = true := by
  cases e with
  | toolResult tcid r o =>
    simp only [nextRes]
    by_cases hc : tcid = c
    · rw [if_pos hc]
      rfl
    · rw [if_neg hc]
      exact h
  | textDelta a b => exact h
  | reasoningDelta a b => exact h
  | toolCall a b x y => exact h
  | sourceEvt u => exact h
  | finishEvt r => exact h
  | stepStart => exact h
  | stepFinish => exact h
  | textStart => exact h
  | textEnd => exact h
  | errorEvt m => exact h
  | unknown t => exact h

theorem foldl_nextRes_isSome_of_isSome (c : String) :
    ∀ (l : List StreamEvent) (acc : Option (Option String)), acc.isSome = true →
      (l.foldl (nextRes c) acc).isSome = true := by
  intro l
  induction l with
  | nil => intro acc h; exact h
  | cons e l ih =>
    intro acc h
    rw [List.foldl_cons]
    exact ih _ (nextRes_isSome c acc e h)

theorem foldl_nextRes_isSome (c : String) :
    ∀ (l : List StreamEvent) (acc : Option (Option String)),
      (∃ e ∈ l, isToolResultFor c e = true) →
      (l.foldl (nextRes c) acc).isSome = true := by
  intro l
  induction l with
  | nil =>
    intro acc h
    obtain ⟨e, he, _⟩ := h
    exact absurd he (List.not_mem_nil e)
  | cons e l ih =>
    intro acc h
    rw [List.foldl_cons]
    obtain ⟨e', he', hr⟩ := h
    rcases List.mem_cons.mp he' with rfl | hmem
    · apply foldl_nextRes_isSome_of_isSome
      cases e' with
      | toolResult tcid r o =>
        have hbe : (tcid == c) = true := hr
        have heqc : tcid = c := by simpa using hbe
        simp only [nextRes]
        rw [if_pos heqc]
        rfl
      | textDelta a b => exact Bool.noConfusion hr
      | reasoningDelta a b => exact Bool.noConfusion hr
      | toolCall a b x y => exact Bool.noConfusion hr
      | sourceEvt u => exact Bool.noConfusion hr
      | finishEvt r => exact Bool.noConfusion hr
      | stepStart => exact Bool.noConfusion hr
      | stepFinish => exact Bool.noConfusion hr
      | textStart => exact Bool.noConfusion hr
      | textEnd => exact Bool.noConfusion hr
      | errorEvt m => exact Bool.noConfusion hr
      | unknown t => exact Bool.noConfusion hr
    · exact ih _ ⟨e', hmem, hr⟩

/-- Filtering the decomposed part list down to call id `c` leaves just the
tracked part. -/
theorem filter_middle_toolCall (c : String) (P : JobPart) (tid : Nat)
    (l₁ l₂ : List (Nat × JobPart))
    (h₁ : ∀ e ∈ l₁, e.2.toolCallId ≠ some c)
    (h₂ : ∀ e ∈ l₂, e.2.toolCallId ≠ some c)
    (hP : P.toolCallId = some c) :
    ((l₁ ++ (tid, P) :: l₂).map Prod.snd).filter
      (fun p => p.toolCallId == some c) = [P] := by
  rw [List.map_append, List.filter_append, List.map_cons, List.filter_cons]
  have hl₁ : (l₁.map Prod.snd).filter (fun p => p.toolCallId == some c) = [] := by
    rw [List.filter_eq_nil_iff]
    intro p hp hb
    obtain ⟨e', he', rfl⟩ := List.mem_map.mp hp
    exact h₁ e' he' (by simpa using hb)
  have hl₂ : (l₂.map Prod.snd).filter (fun p => p.toolCallId == some c) = [] := by
    rw [List.filter_eq_nil_iff]
    intro p hp hb
    obtain ⟨e', he', rfl⟩ := List.mem_map.mp hp
    exact h₂ e' he' (by simpa using hb)
  rw [hl₁, hl₂]
  have hPb : (((tid, P) : Nat × JobPart).2.toolCallId == some c) = true := by
    show (P.toolCallId == some c) = true
    rw [hP]
    simp
  rw [if_pos hPb]
  rfl

theorem updateJobPartCore_parts (m : JobPart → Bool) (g : JobPart → JobPart)
    (job : ChatJob) :
    (updateJobPartCore m g job).parts =
      if job.parts.any m = true then updateFirst m g job.parts else job.parts := by
  unfold updateJobPartCore
  by_cases h : job.parts.any m = true
  · rw [if_pos h, if_pos h]
  · rw [if_neg h, if_neg h]

/-- Re-applying the same `updateJobPart` leaves the stored parts unchanged. -/
theorem updateJobPart_parts_idem (m : JobPart → Bool) (g : JobPart → JobPart)
    (hm : ∀ p, m (g p) = m p) (hg : ∀ p, g (g p) = g p) (j : Option ChatJob) :
    (updateJobPart m g (updateJobPart m g j)).map ChatJob.parts =
      (updateJobPart m g j).map ChatJob.parts := by
  cases j with
  | none => rfl
  | some job =>
    show some (updateJobPartCore m g (updateJobPartCore m g job)).parts =
      some (updateJobPartCore m g job).parts
    rw [updateJobPartCore_parts m g (updateJobPartCore m g job),
      updateJobPartCore_parts m g job]
    by_cases h : job.parts.any m = true
    · rw [if_pos h, any_updateFirst m g hm, if_pos h,
        updateFirst_idem m g hm hg]
    · rw [if_neg h, if_neg h]

theorem stepEvent_toolResult_none (c : String) (r o : Option String)
    (s : OrchState) (h : assocGet s.toolCalls c = none) :
    stepEvent (.toolResult c r o) s = s := by
  simp only [stepEvent]
  rw [h]

theorem stepEvent_toolResult_some (c : String) (r o : Option String)
    (s : OrchState) (tid : Nat) (h : assocGet s.toolCalls c = some tid) :
    stepEvent (.toolResult c r o) s =
      { s with
        order := updateById tid (resolveToolFields (r.orElse fun _ => o)) s.order
        job := updateJobPart
          (fun p => p.type == "dynamic-tool" && p.toolCallId == some c)
          (resolveToolFields (r.orElse fun _ => o)) s.job } := by
  simp only [stepEvent]
  rw [h]

/-- Re-delivering the same `tool-result` is a no-op on both the ordered part
list and the stored job parts (no duplicate part, no change). -/
theorem toolResult_redeliver (c : String) (r o : Option String) (s : OrchState) :
    partsOf (stepEvent (.toolResult c r o) (stepEvent (.toolResult c r o) s)) =
      partsOf (stepEvent (.toolResult c r o) s) ∧
    (stepEvent (.toolResult c r o)
        (stepEvent (.toolResult c r o) s)).job.map ChatJob.parts =
      (stepEvent (.toolResult c r o) s).job.map ChatJob.parts := by
  cases htc : assocGet s.toolCalls c with
  | none =>
    rw [stepEvent_toolResult_none c r o s htc, stepEvent_toolResult_none c r o s htc]
    exact ⟨rfl, rfl⟩
  | some tid =>
    rw [stepEvent_toolResult_some c r o s tid htc]
    have htc2 : assocGet ({ s with
        order := updateById tid (resolveToolFields (r.orElse fun _ => o)) s.order
        job := updateJobPart
          (fun p => p.type == "dynamic-tool" && p.toolCallId == some c)
          (resolveToolFields (r.orElse fun _ => o)) s.job } : OrchState).toolCalls c =
        some tid := htc
    rw [stepEvent_toolResult_some c r o _ tid htc2]
    constructor
    · show (updateById tid (resolveToolFields (r.orElse fun _ => o))
          (updateById tid (resolveToolFields (r.orElse fun _ => o)) s.order)).map
          Prod.snd =
        (updateById tid (resolveToolFields (r.orElse fun _ => o)) s.order).map
          Prod.snd
      rw [updateById_idem tid (resolveToolFields (r.orElse fun _ => o))
        (fun p => rfl)]
    · show (updateJobPart (fun p => p.type == "dynamic-tool" && p.toolCallId == some c)
          (resolveToolFields (r.orElse fun _ => o))
          (updateJobPart (fun p => p.type == "dynamic-tool" && p.toolCallId == some c)
            (resolveToolFields (r.orElse fun _ => o)) s.job)).map ChatJob.parts =
        (updateJobPart (fun p => p.type == "dynamic-tool" && p.toolCallId == some c)
          (resolveToolFields (r.orElse fun _ => o)) s.job).map ChatJob.parts
      exact updateJobPart_parts_idem
        (fun p => p.type == "dynamic-tool" && p.toolCallId == some c)
        (resolveToolFields (r.orElse fun _ => o)) (fun p => rfl) (fun p => rfl)
        s.job

/-- C6: in a stream whose `tool-call` for id `c` is followed by one or more
`tool-result` events for `c` (and `c` is never re-issued), the final part
list contains exactly one part with call id `c`: the `dynamic-tool` part in
`output-available` state carrying the payload of the last result
(`resolveToolFields ro (newToolPart c n a i)` has
`state = some "output-available"` and `result = output = ro`).  Each
`tool-result` mutates the existing part in place, and re-delivering a
`tool-result` a second time changes neither the ordered part list nor the
stored job parts. -/
theorem claim_C6 (jid cid c n : String) (a i : Option String)
    (pre post : List StreamEvent) (rt : Option String)
    (hpre : ∀ e ∈ pre, isToolCallFor c e = false)
    (hpost : ∀ e ∈ post, isToolCallFor c e = false)
    (hres : ∃ e ∈ post, isToolResultFor c e = true) :
    ∃ ro : Option String,
      lastResultFor c post = some ro ∧
      (finalParts (runEvents jid cid (pre ++ .toolCall c n a i :: post)) rt).filter
          (fun p => p.toolCallId == some c) =
        [resolveToolFields ro (newToolPart c n a i)] ∧
      ∀ r o : Option String,
        partsOf (stepEvent (.toolResult c r o) (stepEvent (.toolResult c r o)
            (runEvents jid cid (pre ++ .toolCall c n a i :: post)))) =
          partsOf (stepEvent (.toolResult c r o)
            (runEvents jid cid (pre ++ .toolCall c n a i :: post))) ∧
        (stepEvent (.toolResult c r o) (stepEvent (.toolResult c r o)
            (runEvents jid cid (pre ++ .toolCall c n a i :: post)))).job.map
            ChatJob.parts =
          (stepEvent (.toolResult c r o)
            (runEvents jid cid (pre ++ .toolCall c n a i :: post))).job.map
            ChatJob.parts := by
  obtain ⟨ro, hro⟩ := Option.isSome_iff_exists.mp
    (foldl_nextRes_isSome c post none hres)
  refine ⟨ro, hro, ?_, ?_⟩
  · have hrun : runEvents jid cid (pre ++ .toolCall c n a i :: post) =
        post.foldl (fun s e => stepEvent e s)
          (stepEvent (.toolCall c n a i)
            (pre.foldl (fun s e => stepEvent e s) (initOrch jid cid))) := by
      show (pre ++ .toolCall c n a i :: post).foldl (fun s e => stepEvent e s)
        (initOrch jid cid) = _
      rw [List.foldl_append, List.foldl_cons]
    have hinv1 := orchInv_foldl pre (initOrch jid cid) (orchInv_init jid cid)
    have htr2 := trackedCall_foldl c n a i post hpost _ none
      (orchInv_step (.toolCall c n a i) _ hinv1)
      (trackedCall_start c n a i _ hinv1
        (noCallFor_foldl c pre hpre _ (noCallFor_init c jid cid)))
    obtain ⟨tid, l₁, l₂, heq, h₁, h₂, _⟩ := htr2
    rw [hro] at heq
    rw [hrun]
    obtain ⟨tl, hfl, htl⟩ := finalParts_cases
      (post.foldl (fun s e => stepEvent e s)
        (stepEvent (.toolCall c n a i)
          (pre.foldl (fun s e => stepEvent e s) (initOrch jid cid)))) rt
    rw [hfl, List.filter_append]
    have htl0 : tl.filter (fun p => p.toolCallId == some c) = [] := by
      rw [List.filter_eq_nil_iff]
      intro p hp hb
      rw [(htl p hp).2] at hb
      simp at hb
    rw [htl0, List.append_nil]
    simp only [partsOf]
    rw [heq]
    exact filter_middle_toolCall c (theToolState c n a i (some ro)) tid l₁ l₂
      (fun e' he' => (h₁ e' he').2) h₂ (theToolState_toolCallId c n a i (some ro))
  · intro r o
    exact toolResult_redeliver c r o
      (runEvents jid cid (pre ++ .toolCall c n a i :: post))

/-- Witness for C6: the spec scenario — `tool-call(id=1, name="lookup")`,
then `tool-result(id=1, result=42)`, then `finish` — yields exactly one
resolved tool part for id 1. -/
theorem claim_C6_witness :
    ((∀ e ∈ ([] : List StreamEvent), isToolCallFor "1" e = false) ∧
      (∀ e ∈ [StreamEvent.toolResult "1" (some "42") none,
          StreamEvent.finishEvt "stop"], isToolCallFor "1" e = false) ∧
      (∃ e ∈ [StreamEvent.toolResult "1" (some "42") none,
          StreamEvent.finishEvt "stop"], isToolResultFor "1" e = true)) ∧
    (∃ ro : Option String,
      lastResultFor "1" [StreamEvent.toolResult "1" (some "42") none,
          StreamEvent.finishEvt "stop"] = some ro ∧
      (finalParts (runEvents "job-1" "chat-1"
          ([] ++ .toolCall "1" "lookup" none none ::
            [StreamEvent.toolResult "1" (some "42") none,
              StreamEvent.finishEvt "stop"])) none).filter
          (fun p => p.toolCallId == some "1") =
        [resolveToolFields ro (newToolPart "1" "lookup" none none)] ∧
      ∀ r o : Option String,
        partsOf (stepEvent (.toolResult "1" r o) (stepEvent (.toolResult "1" r o)
            (runEvents "job-1" "chat-1"
              ([] ++ .toolCall "1" "lookup" none none ::
                [StreamEvent.toolResult "1" (some "42") none,
                  StreamEvent.finishEvt "stop"])))) =
          partsOf (stepEvent (.toolResult "1" r o)
            (runEvents "job-1" "chat-1"
              ([] ++ .toolCall "1" "lookup" none none ::
                [StreamEvent.toolResult "1" (some "42") none,
                  StreamEvent.finishEvt "stop"]))) ∧
        (stepEvent (.toolResult "1" r o) (stepEvent (.toolResult "1" r o)
            (runEvents "job-1" "chat-1"
              ([] ++ .toolCall "1" "lookup" none none ::
                [StreamEvent.toolResult "1" (some "42") none,
                  StreamEvent.finishEvt "stop"])))).job.map ChatJob.parts =
          (stepEvent (.toolResult "1" r o)
            (runEvents "job-1" "chat-1"
              ([] ++ .toolCall "1" "lookup" none none ::
                [StreamEvent.toolResult "1" (some "42") none,
                  StreamEvent.finishEvt "stop"]))).job.map ChatJob.parts) :=
  ⟨⟨by decide, by decide, by decide⟩,
    claim_C6 "job-1" "chat-1" "1" "lookup" none none []
      [StreamEvent.toolResult "1" (some "42") none, StreamEvent.finishEvt "stop"]
      none (by decide) (by decide) (by decide)⟩

/-- Witness for C9: a stream that interleaves text and reasoning deltas ends
with the reasoning part at index 0, before the text part at index 1. -/
theorem claim_C9_witness :
    (0 < (finalParts (runEvents "job-1" "chat-1"
        [.textDelta (some "a") none, .reasoningDelta (some "think") none,
          .textDelta (some "b") none]) none).length ∧
      1 < (finalParts (runEvents "job-1" "chat-1"
        [.textDelta (some "a") none, .reasoningDelta (some "think") none,
          .textDelta (some "b") none]) none).length ∧
      ((finalParts (runEvents "job-1" "chat-1"
        [.textDelta (some "a") none, .reasoningDelta (some "think") none,
          .textDelta (some "b") none]) none).getD 0 dummyJobPart).type = "reasoning" ∧
      ((finalParts (runEvents "job-1" "chat-1"
        [.textDelta (some "a") none, .reasoningDelta (some "think") none,
          .textDelta (some "b") none]) none).getD 1 dummyJobPart).type = "text") ∧
    0 < 1 :=
  ⟨⟨by decide, by decide, by decide, by decide⟩,
    claim_C9 "job-1" "chat-1"
      [.textDelta (some "a") none, .reasoningDelta (some "think") none,
        .textDelta (some "b") none] none 0 1 (by decide) (by decide) (by decide)
      (by decide)⟩

end ChatApp
